import Mathlib

/-!
Shell-ish: command parsing, pipeline execution and ship placement.

A shallow embedding of `shellish-skeleton.c`: the parser `parse_command`, the
executor `process_command`, the battleship helper `place_ship`, and one turn
of the receiver loop and of the command loop of `run_battleship`.

Conventions of the embedding.
* A C string is the list of its characters up to (not including) the
  terminating NUL; a line read by `prompt` contains no NUL.
* A `char *` that may be `NULL` is an `Option`; `none` is `NULL`.
* A result `none` (for `process_command`: the outcome `undefined`) stands for
  an execution whose result C does not define or that depends on memory the
  program never wrote: a copy that does not fit its buffer, a `NULL` handed
  to a string function, an index outside an array, text read behind the
  terminating NUL of the line.
* The struct of a piped stage comes from `malloc` and is not cleared by the
  source.  What such a block holds is given by `fresh`: `fresh k` is the
  content of the block of the `k`-th `malloc(sizeof(struct command_t))` of a
  parse, before `parse_command` writes to it.
* The line buffer of `prompt` is an uninitialised local array: what stands
  behind the terminating NUL of the line is not known.  It is read only when
  the last token of the line is a pipe sign in the token loop (the NUL is
  then overwritten by a blank before the recursive call).
* `strtok` keeps one saved position for the whole program.  The recursive
  call of `parse_command` for the text after a pipe sign tokenizes that text
  to its end, so the loop of the caller finds no further token.
* System calls (`pipe`, `fork`, `open`, `dup2`) and allocations (`malloc`,
  `realloc`, `strdup`) succeed.
* The battleship receiver is a forked child: it works on its own copy of the
  boards.
-/

namespace Shellish

/-- A C string without its terminating NUL. -/
abbrev Str := List Char

/-- The struct `command_t`.  `args` is the array `char **args` (its written
slots), `redirects` the array `char *redirects[3]`, `next` the pipe link. -/
structure command_t where
  name : Str
  background : Bool
  auto_complete : Bool
  arg_count : Int
  args : List (Option Str)
  redirects : Fin 3 → Option Str
  next : Option command_t

/-- The struct after `memset(command, 0, sizeof(struct command_t))` in `main`
(the name pointer is `NULL` there and is always assigned by `parse_command`). -/
def zeroed : command_t :=
  { name := [], background := false, auto_complete := false, arg_count := 0,
    args := [], redirects := fun _ => none, next := none }

/-- The size of `temp_buf` in `parse_command`. -/
def TEMP_BUF_SIZE : Nat := 1024

/-- Membership in `splitters = " \t"` (the test `strchr(splitters, c) != NULL`
for a character inside the string). -/
def is_splitter (c : Char) : Bool := c == ' ' || c == Char.ofNat 9

/-- The loop `while (len > 0 && strchr(splitters, buf[0]) != NULL) buf++`. -/
def trim_left (s : Str) : Str := s.dropWhile is_splitter

/-- The loop `while (len > 0 && strchr(splitters, buf[len-1]) != NULL) buf[--len] = 0`. -/
def trim_right (s : Str) : Str := (s.reverse.dropWhile is_splitter).reverse

/-- One call of `strtok(_, splitters)` at the position `s`: skips the leading
splitters; `none` when the string ends there; otherwise the token (up to the
next splitter) and the position saved for the next call (just after the
splitter that was overwritten by NUL, or the end of the string). -/
def strtok (s : Str) : Option (Str × Str) :=
  match s.dropWhile is_splitter with
  | [] => none
  | c :: t =>
    some ((c :: t).takeWhile (fun x => !is_splitter x),
          ((c :: t).dropWhile (fun x => !is_splitter x)).tail)

/-- The loop `for (i = arg_count - 2; i > 0; --i) args[i] = args[i - 1]`,
started at `i`. -/
def shift_args : Nat → List (Option Str) → List (Option Str)
  | 0, args => args
  | i + 1, args => shift_args i (args.set (i + 1) (args.getD i none))

/-- The tail of `parse_command` after the token loop: `arg_count` is set,
the array grows by two slots, everything is shifted forward by one,
`args[0]` becomes a copy of the name and the last slot `NULL`. -/
def finish_args (command : command_t) : command_t :=
  let arg_index := command.args.length
  let arg_count := arg_index + 2
  let args := command.args ++ [none, none]
  let args := shift_args (arg_count - 2) args
  let args := args.set 0 (some command.name)
  let args := args.set (arg_count - 1) none
  { command with arg_count := (arg_count : Int), args := args }

/-- The redirect test of the token loop: the slot index (`-1` for none) and
the position of `arg` after the possible `arg++` of the `>>` case. -/
def redirect_index (arg : Str) : Int × Str :=
  let r : Int := -1
  let r := if arg.head? = some '<' then 0 else r
  if arg.head? = some '>' then
    if arg.length > 1 ∧ arg.tail.head? = some '>' then (2, arg.tail) else (1, arg)
  else (r, arg)

/-- The quote test of the token loop: a token longer than two characters that
starts and ends with the same quote loses its first and last character. -/
def strip_quotes (arg : Str) : Str :=
  if arg.length > 2 ∧
      ((arg.head? = some (Char.ofNat 34) ∧ arg.getLast? = some (Char.ofNat 34)) ∨
       (arg.head? = some (Char.ofNat 39) ∧ arg.getLast? = some (Char.ofNat 39)))
  then arg.dropLast.tail else arg

/-- The body of the token loop for a token that is neither empty nor the pipe
sign: a bare `&` is skipped, a redirect token fills its slot, any other token
is appended to the argument array (after the quote test). -/
def parse_token (command : command_t) (arg : Str) : command_t :=
  if arg = ['&'] then command
  else
    let (i, arg) := redirect_index arg
    if i ≠ -1 then
      { command with
        redirects := fun j => if (j.val : Int) = i then some arg.tail else command.redirects j }
    else
      let arg := strip_quotes arg
      { command with args := command.args ++ [some arg] }

/-- Lines 106-109 of `parse_command`: a line that ends in `?` sets
`auto_complete`, a line that ends in `&` sets `background`; `last` is the
last character of the trimmed line, if any. -/
def set_flags (last : Option Char) (command : command_t) : command_t :=
  let command :=
    if last = some '?' then { command with auto_complete := true } else command
  if last = some '&' then { command with background := true } else command

/-- A text without trailing blank or tab, as the right trim of
`parse_command` leaves the line. -/
def right_trimmed (s : Str) : Prop := ∀ x, s.getLast? = some x → is_splitter x = false

/-- Whether the token that `strtok` finds at the position `pos` ends at the
terminating NUL of the line: no splitter follows it. -/
def ends_line (pos : Str) : Bool :=
  ((pos.dropWhile is_splitter).dropWhile (fun x => !is_splitter x)).isEmpty

mutual
/-- The function `parse_command(buf, command)`, with fuel for the recursion on the
rest of the line (fuel `0` is never reached from `parse_command`).  `none`
when a token does not fit `temp_buf` or a pipe sign in the token loop ends
the line. -/
def parse_command_fuel : Nat → (Nat → command_t) → Str → command_t → Option command_t
  | 0, _, _, _ => none
  | fuel + 1, fresh, buf, command =>
    let buf := trim_right (trim_left buf)
    let command := set_flags buf.getLast? command
    match strtok buf with
    | none => parse_loop fuel fresh [] { command with name := [], args := [] }
    | some (pch, rest) => parse_loop fuel fresh rest { command with name := pch, args := [] }
/-- The token loop `while (1)` of `parse_command`, at the `strtok` position
`pos`; `command.args` holds the `arg_index` slots written so far. -/
def parse_loop : Nat → (Nat → command_t) → Str → command_t → Option command_t
  | 0, _, _, _ => none
  | fuel + 1, fresh, pos, command =>
    match strtok pos with
    | none => some (finish_args command)
    | some (pch, rest) =>
      -- `strcpy(arg, pch)` with `arg = temp_buf`: the token and its NUL must fit
      if pch.length + 1 > TEMP_BUF_SIZE then none
      else
        let arg := trim_right (trim_left pch)
        if arg.length = 0 then parse_loop fuel fresh rest command
        else if arg = ['|'] then
          -- when the pipe sign ends the line, `pch[l] = ' '` replaces the
          -- terminating NUL of the line and the recursive call reads on
          if ends_line pos then none
          else
          -- the terminator of the token is turned back into a blank
          -- (`pch[l] = ' '`) and the blanks from `pch[1]` on are skipped
          let mem := pch ++ ' ' :: rest
          -- the struct of the next stage is a block from `malloc`
          (parse_command_fuel fuel (fun k => fresh (k + 1))
              ((mem.drop 1).dropWhile is_splitter) (fresh 0)).map
            -- the recursive call has driven `strtok` to the end of the line:
            -- the next `strtok(NULL, _)` yields `NULL` and the loop ends
            (fun c => finish_args { command with next := some c })
        else parse_loop fuel fresh rest (parse_token command arg)
end

/-- The function `parse_command`.  Every step of the recursion consumes at least one
character of the line, so the fuel `buf.length + 2` never runs out: by
`parse_command_tokens` the result is that of the parser `parse_tokens`, which
needs no fuel. -/
def parse_command (fresh : Nat → command_t) (buf : Str) (command : command_t) :
    Option command_t :=
  parse_command_fuel (buf.length + 2) fresh buf command

/-- All tokens `strtok` delivers from the position `s` on, with fuel. -/
def tokens_fuel : Nat → Str → List Str
  | 0, _ => []
  | fuel + 1, s =>
    match strtok s with
    | none => []
    | some (pch, rest) => pch :: tokens_fuel fuel rest

/-- The whitespace-delimited tokens of a line, as `strtok` delivers them
(`tokens_eq_splitOnP`: the maximal runs of characters other than blank and
tab). -/
def tokens (s : Str) : List Str := tokens_fuel s.length s

/-- A token that lands in the argument array: not a bare `&`, not a redirect
token (the pipe sign is excluded separately, it ends the stage). -/
def is_positional (t : Str) : Bool :=
  t ≠ ['&'] ∧ t.head? ≠ some '<' ∧ t.head? ≠ some '>'

/-- The positional arguments of the stage whose tokens after the name are
`toks`: the positional tokens before the first pipe sign. -/
def positional_args (toks : List Str) : List Str :=
  (toks.takeWhile (fun t => t ≠ ['|'])).filter is_positional

/-- A redirect token in the words of the specification: `<p` names slot 0,
`>>p` slot 2, `>p` with `p` not starting with `>` slot 1; the operator is
stripped and `p` is the path. -/
def redirect_kind (t : Str) : Option (Fin 3 × Str) :=
  match t with
  | '<' :: p => some (0, p)
  | '>' :: '>' :: p => some (2, p)
  | '>' :: p => some (1, p)
  | _ => none

/-- The path of the last token of `toks` that names the redirect slot `j`. -/
def last_redirect (j : Fin 3) (toks : List Str) : Option Str :=
  (((toks.filterMap redirect_kind).filter (fun x => x.1 = j)).getLast?).map (fun x => x.2)

mutual
/-- A second definition of the parser, on the tokens of a line and without
fuel or `strtok` positions: the first token is the name, the last character
of the last token sets the flags, the other tokens are taken in turn
(`parse_tokens_loop`).  `parse_command_tokens` proves that `parse_command`
computes exactly this. -/
def parse_tokens : (Nat → command_t) → List Str → command_t → Option command_t
  | _, [], c => some (finish_args { set_flags none c with name := [], args := [] })
  | fresh, name :: ts, c =>
    parse_tokens_loop fresh ts
      { set_flags ((name :: ts).getLast?.bind List.getLast?) c with name := name, args := [] }
/-- The tokens after the name: a token too long for `temp_buf` has no defined
result, nor has a pipe sign as last token; any other pipe sign hands the
remaining tokens to a new stage and ends this one; every other token is a
bare `&`, a redirect or an argument. -/
def parse_tokens_loop : (Nat → command_t) → List Str → command_t → Option command_t
  | _, [], c => some (finish_args c)
  | fresh, t :: ts, c =>
    if t.length + 1 > TEMP_BUF_SIZE then none
    else if t = ['|'] then
      if ts = [] then none
      else
        (parse_tokens (fun k => fresh (k + 1)) ts (fresh 0)).map
          (fun n => finish_args { c with next := some n })
    else parse_tokens_loop fresh ts (parse_token c t)
end

mutual
/-- The tokens of a line, stage by stage: each stage is its name followed by
the tokens up to the next pipe sign; the token after a pipe sign is a name
even when it is a pipe sign itself. -/
def stages_of : List Str → List (List Str)
  | [] => [[]]
  | name :: ts => stages_loop [name] ts
/-- The stages of a line when the tokens `cur` of the current stage have been
read. -/
def stages_loop : List Str → List Str → List (List Str)
  | cur, [] => [cur]
  | cur, t :: ts => if t = ['|'] then cur :: stages_of ts else stages_loop (cur ++ [t]) ts
end

/-- The stage reached from `c` by following `next` `k` times. -/
def nth_stage : Nat → command_t → Option command_t
  | 0, c => some c
  | k + 1, c =>
    match c.next with
    | none => none
    | some n => nth_stage k n

/-- The struct that the parse of stage `k` of a line starts from: the struct
handed to `parse_command` for the first stage, the block of the `k`-th
`malloc(sizeof(struct command_t))` for a later one. -/
def stage_init (fresh : Nat → command_t) (c : command_t) : Nat → command_t
  | 0 => c
  | k + 1 => fresh k

/-- What a stage holds besides its flags: name, argument array and the three
redirect slots. -/
structure StageView where
  name : Str
  args : List (Option Str)
  input : Option Str
  output_truncate : Option Str
  output_append : Option Str
  deriving DecidableEq

/-- The stages of a command chain, first to last, following `next`. -/
def chain_view : command_t → List StageView
  | ⟨name, _, _, _, args, redirects, none⟩ =>
    [⟨name, args, redirects 0, redirects 1, redirects 2⟩]
  | ⟨name, _, _, _, args, redirects, some nxt⟩ =>
    ⟨name, args, redirects 0, redirects 1, redirects 2⟩ :: chain_view nxt

/-! ## Pipeline execution -/

/-- The enumerator `SUCCESS = 0` of `enum return_codes`. -/
def SUCCESS : Int := 0
/-- The enumerator `EXIT = 1` of `enum return_codes`. -/
def EXIT : Int := 1

/-- File descriptors named in `process_command`: the two standard ones, the
two ends `fd[0]`, `fd[1]` of the pipe made by the last `pipe` call, and the
descriptor returned by the last `open`. -/
inductive Fd
  | STDIN_FILENO | STDOUT_FILENO | pipe_read | pipe_write | opened
  deriving DecidableEq

/-- The flag sets passed to `open` in `process_command`. -/
inductive OpenFlags
  | O_RDONLY | O_WRONLY_CREAT_TRUNC | O_WRONLY_CREAT_APPEND
  deriving DecidableEq

/-- How a call of `process_command` ends in the process that made it: it
returns a code; or it runs an interactive session and returns the code once
the session has ended (whether and how a session ends depends on what is
typed in it and is not modelled); or it has no defined result (the process
runs into behaviour C leaves undefined and is killed on a usual system, as
when `NULL` is handed to `strcat`). -/
inductive Outcome
  | returns (code : Int)
  | after_session (code : Int)
  | undefined
  deriving DecidableEq

/-- The calls a process makes while it runs `process_command`.  A `fork`
carries everything the child does from the fork on.  `chdir` stands for the
call and the message printed when it fails.  `exec_with_path` is a single
action.  `cut` is the filter loop of the cut built-in over standard input,
with its delimiter and its field tokens.  `run_chatroom` and `run_battleship`
are whole interactive sessions; what a session does (among it one `pipe` call
for every message it sends) is not part of the action.  `undefined` marks the
point where the process runs into behaviour without a defined result; nothing
is known about what it does from there. -/
inductive Action
  | undefined
  | chdir (path : Option Str)
  | printf (text : Str)
  | cut (delimiter : Char) (fields : List Str)
  | print_usage
  | run_chatroom (roomname username : Str)
  | run_battleship (roomname username : Str)
  | pipe
  | fork (child : List Action)
  | dup2 (oldfd newfd : Fd)
  | close (fd : Fd)
  | open_file (path : Str) (flags : OpenFlags)
  | exec_with_path (name : Str) (args : List (Option Str))
  | exit (status : Int)
  | wait

/-- How the option loop of the cut built-in ends. -/
inductive CutScan
  | missing_delimiter
  | missing_field_after
  | scanned (delimiter : Char) (fields_string : Option Str)
  | out_of_bounds
  deriving DecidableEq

/-- The loop `for (i = 1; command->args[i] != NULL; i++)` of the cut built-in
on the slots from `args[i]` on, with the values of `delimiter`,
`fields_string` (`field_seen` is 1 exactly when it is set) and
`delimiter_seen`.  Running off the array without meeting `NULL` is
`out_of_bounds`. -/
def cut_options : List (Option Str) → Char → Option Str → Bool → CutScan
  | [], _, _, _ => CutScan.out_of_bounds
  | none :: _, delimiter, fields_string, _ => CutScan.scanned delimiter fields_string
  | some a :: rest, delimiter, fields_string, delimiter_seen =>
    if a = "-d".toList ∧ delimiter_seen = false then
      match rest with
      | [] => CutScan.out_of_bounds
      | none :: _ => CutScan.missing_delimiter
      | some b :: rest2 => cut_options rest2 (b.headD (Char.ofNat 0)) fields_string true
    else if a.take 2 = "-f".toList ∧ fields_string = none then
      if a.drop 2 = [] then CutScan.missing_field_after
      else cut_options rest delimiter (some (a.drop 2)) delimiter_seen
    else cut_options rest delimiter fields_string delimiter_seen

/-- The cut built-in of `process_command`.  The field string is copied into
`temp[256]` and its tokens between commas are stored in `fields[100]`; a
string or a token count that does not fit has no defined result. -/
def cut_builtin (args : List (Option Str)) : Outcome × List Action :=
  match cut_options (args.drop 1) (Char.ofNat 9) none false with
  | CutScan.out_of_bounds => (Outcome.undefined, [Action.undefined])
  | CutScan.missing_delimiter =>
    (Outcome.returns SUCCESS, [Action.printf ("Missing delimiter".toList ++ [Char.ofNat 10])])
  | CutScan.missing_field_after =>
    (Outcome.returns SUCCESS,
      [Action.printf ("Missing field after -f".toList ++ [Char.ofNat 10])])
  | CutScan.scanned _ none =>
    (Outcome.returns SUCCESS, [Action.printf ("Missing field".toList ++ [Char.ofNat 10])])
  | CutScan.scanned delimiter (some fields_string) =>
    let fields := (fields_string.splitOnP (fun x => x == ',')).filter (fun t => !t.isEmpty)
    if fields_string.length + 1 > 256 ∨ fields.length > 100 then
      (Outcome.undefined, [Action.undefined])
    else (Outcome.returns SUCCESS, [Action.cut delimiter fields])

/-- The redirect part of the single-stage child: for each slot that is set,
in the order `redirects[0]`, `redirects[1]`, `redirects[2]`, the file is
opened, duplicated onto the standard descriptor and closed. -/
def apply_redirects (command : command_t) : List Action :=
  (match command.redirects 0 with
   | some p => [Action.open_file p OpenFlags.O_RDONLY,
                Action.dup2 Fd.opened Fd.STDIN_FILENO, Action.close Fd.opened]
   | none => []) ++
  (match command.redirects 1 with
   | some p => [Action.open_file p OpenFlags.O_WRONLY_CREAT_TRUNC,
                Action.dup2 Fd.opened Fd.STDOUT_FILENO, Action.close Fd.opened]
   | none => []) ++
  (match command.redirects 2 with
   | some p => [Action.open_file p OpenFlags.O_WRONLY_CREAT_APPEND,
                Action.dup2 Fd.opened Fd.STDOUT_FILENO, Action.close Fd.opened]
   | none => [])

/-- The cd built-in of `process_command` (inside `arg_count > 0`):
`chdir(command->args[1])`, then `return SUCCESS`. -/
def cd_builtin (args : List (Option Str)) : Outcome × List Action :=
  match args.get? 1 with
  | some path => (Outcome.returns SUCCESS, [Action.chdir path])
  | none => (Outcome.undefined, [Action.undefined])

/-- The chatroom built-in of `process_command`: the usage message when
`arg_count < 3`, else `run_chatroom(command->args[1], command->args[2])`. -/
def chatroom_builtin (arg_count : Int) (args : List (Option Str)) : Outcome × List Action :=
  if arg_count < 3 then (Outcome.returns SUCCESS, [Action.print_usage])
  else
    match args.getD 1 none, args.getD 2 none with
    | some roomname, some username =>
      (Outcome.after_session SUCCESS, [Action.run_chatroom roomname username])
    | _, _ => (Outcome.undefined, [Action.undefined])

/-- The battleship built-in of `process_command`: the usage message when
`arg_count < 2`, else `run_battleship(command->args[1], command->args[2])`. -/
def battleship_builtin (arg_count : Int) (args : List (Option Str)) : Outcome × List Action :=
  if arg_count < 2 then (Outcome.returns SUCCESS, [Action.print_usage])
  else
    match args.getD 1 none, args.getD 2 none with
    | some roomname, some username =>
      (Outcome.after_session SUCCESS, [Action.run_battleship roomname username])
    | _, _ => (Outcome.undefined, [Action.undefined])

/-- The function `process_command` in the process that calls it: how the call
ends there and the calls made, children included.  System calls succeed;
`exec_with_path` does not return (it replaces the image or ends in
`exit(127)`).  The
chatroom and battleship sessions copy their two arguments with `strcat`,
`strncat` and `sprintf`: with a `NULL` argument, or a slot outside the
argument array, the call has no defined result. -/
def process_command : command_t → Outcome × List Action
  | ⟨name, background, auto_complete, arg_count, args, redirects, next⟩ =>
    let command : command_t := ⟨name, background, auto_complete, arg_count, args, redirects, next⟩
    if name = [] then (Outcome.returns SUCCESS, [])
    else if name = "exit".toList then (Outcome.returns EXIT, [])
    else if name = "cd".toList ∧ arg_count > 0 then cd_builtin args
    else if name = "cut".toList then cut_builtin args
    else if name = "chatroom".toList then chatroom_builtin arg_count args
    else if name = "battleship".toList then battleship_builtin arg_count args
    else
      match next with
      | some nxt =>
        (Outcome.returns SUCCESS,
          [Action.pipe,
           Action.fork [Action.dup2 Fd.pipe_write Fd.STDOUT_FILENO, Action.close Fd.pipe_read,
                        Action.close Fd.pipe_write, Action.exec_with_path name args],
           Action.fork ([Action.dup2 Fd.pipe_read Fd.STDIN_FILENO, Action.close Fd.pipe_write,
                         Action.close Fd.pipe_read] ++ (process_command nxt).2 ++
                        (if (process_command nxt).1 = Outcome.undefined then []
                         else [Action.exit 0])),
           Action.close Fd.pipe_read, Action.close Fd.pipe_write, Action.wait, Action.wait])
      | none =>
        (Outcome.returns SUCCESS,
          [Action.fork (apply_redirects command ++ [Action.exec_with_path name args])] ++
          (if background ≠ true then [Action.wait] else []))

mutual
/-- Number of `pipe` calls of one action, the child of a `fork` included;
`none` for a session, whose `pipe` calls depend on what is typed in it, and
for a process without a defined result. -/
def pipes_of_action : Action → Option Nat
  | Action.pipe => some 1
  | Action.fork child => pipes_of_actions child
  | Action.run_chatroom _ _ => none
  | Action.run_battleship _ _ => none
  | Action.undefined => none
  | _ => some 0
/-- Number of `pipe` calls in a list of actions, children included. -/
def pipes_of_actions : List Action → Option Nat
  | [] => some 0
  | a :: rest =>
    match pipes_of_action a, pipes_of_actions rest with
    | some x, some y => some (x + y)
    | _, _ => none
end

/-- Whether `process_command` handles the stage as a built-in and returns
before the pipe and fork code. -/
def is_builtin (command : command_t) : Bool :=
  command.name = [] ∨ command.name = "exit".toList ∨
  (command.name = "cd".toList ∧ command.arg_count > 0) ∨
  command.name = "cut".toList ∨ command.name = "chatroom".toList ∨
  command.name = "battleship".toList

/-- Whether the stage is the chatroom or the battleship built-in. -/
def is_session (command : command_t) : Bool :=
  command.name = "chatroom".toList ∨ command.name = "battleship".toList

/-- No stage other than the last one is handled as a built-in. -/
def no_builtin_before_last : command_t → Bool
  | ⟨_, _, _, _, _, _, none⟩ => true
  | ⟨name, background, auto_complete, arg_count, args, redirects, some nxt⟩ =>
    !is_builtin ⟨name, background, auto_complete, arg_count, args, redirects, some nxt⟩ &&
      no_builtin_before_last nxt

/-- The last stage of a chain. -/
def last_stage : command_t → command_t
  | ⟨name, background, auto_complete, arg_count, args, redirects, none⟩ =>
    ⟨name, background, auto_complete, arg_count, args, redirects, none⟩
  | ⟨_, _, _, _, _, _, some nxt⟩ => last_stage nxt

/-- Number of stages of a command chain. -/
def chain_length : command_t → Nat
  | ⟨_, _, _, _, _, _, none⟩ => 1
  | ⟨_, _, _, _, _, _, some nxt⟩ => chain_length nxt + 1

/-! ## Battleship: ship placement -/

/-- The array `char board[10][10]`, indexed `board[row][column]`. -/
abbrev Board := Fin 10 → Fin 10 → Char

/-- The board after the initialisation loop of `run_battleship`: every cell `'.'`. -/
def empty_board : Board := fun _ _ => '.'

/-- The assignment `board[i][j] = v` for indices inside the grid (no cell of
the grid has other indices). -/
def set_cell (board : Board) (i j : Int) (v : Char) : Board :=
  fun r c => if (r.val : Int) = i ∧ (c.val : Int) = j then v else board r c

/-- The C function `isspace` in the "C" locale. -/
def isspace (c : Char) : Bool := c == ' ' || (9 ≤ c.toNat && c.toNat ≤ 13)

/-- The C function `isdigit`. -/
def isdigit (c : Char) : Bool := 48 ≤ c.toNat && c.toNat ≤ 57

/-- The value of a string of decimal digits. -/
def decimal (ds : Str) : Nat := ds.foldl (fun acc d => acc * 10 + (d.toNat - 48)) 0

/-- The conversion `%d` of `sscanf`: white space is skipped, an optional sign
and at least one digit are read; the value and the rest of the input.  Values
are not reduced to the range of `int`. -/
def scan_int (s : Str) : Option (Int × Str) :=
  let s := s.dropWhile isspace
  let (neg, s) :=
    if s.head? = some '-' then (true, s.tail)
    else if s.head? = some '+' then (false, s.tail)
    else (false, s)
  let ds := s.takeWhile isdigit
  if ds = [] then none
  else some (if neg then -(decimal ds : Int) else (decimal ds : Int), s.dropWhile isdigit)

/-- The call `sscanf(coord_str, " %c%d:%c%d", &c1_c, &r1, &c2_c, &r2)`: the
four values when it returns 4, `none` otherwise. -/
def sscanf_range (coord_str : Str) : Option (Char × Int × Char × Int) :=
  match coord_str.dropWhile isspace with
  | [] => none
  | c1_c :: s =>
    match scan_int s with
    | none => none
    | some (r1, s) =>
      match s with
      | ':' :: c2_c :: s =>
        match scan_int s with
        | none => none
        | some (r2, _) => some (c1_c, r1, c2_c, r2)
      | _ => none

/-- The C function `toupper` on a character, as an `int`. -/
def toupper (c : Char) : Int := (c.toUpper.toNat : Int)

/-- A loop `for (i = lo; i <= hi; i++) body`, whose body does not assign `i`. -/
def for_loop {σ : Type} (lo hi : Int) (body : Int → σ → σ) (s : σ) : σ :=
  (List.range (hi + 1 - lo).toNat).foldl (fun s (k : Nat) => body (lo + (k : Int)) s) s

/-- The function `place_ship(board, coord_str)`; the board it leaves (what it
prints is left out). -/
def place_ship (board : Board) (coord_str : Str) : Board :=
  match sscanf_range coord_str with
  | some (c1_c, r1, c2_c, r2) =>
    let start_row := r1 - 1
    let end_row := r2 - 1
    let start_col := toupper c1_c - 65
    let end_col := toupper c2_c - 65
    for_loop start_row end_row (fun i board =>
      for_loop start_col end_col (fun j board =>
        if i ≥ 0 ∧ i < 10 ∧ j ≥ 0 ∧ j < 10 then set_cell board i j 'S' else board) board) board
  | none => board

/-! ## Battleship: the receiver and the command loop -/

/-- The function `all_ships_destroyed(board)`: true (the source returns 1) when
no cell of the grid is `'S'`. -/
def all_ships_destroyed (board : Board) : Bool :=
  (List.finRange 10).all fun i => (List.finRange 10).all fun j => board i j != 'S'

/-- The read `board[i][j]`; `none` when the indices are outside the grid (the
source does not check them, and C does not define such an access). -/
def get_cell (board : Board) (i j : Int) : Option Char :=
  if h : 0 ≤ i ∧ i < 10 ∧ 0 ≤ j ∧ j < 10 then
    some (board ⟨i.toNat, by omega⟩ ⟨j.toNat, by omega⟩)
  else none

/-- The C function `atoi`: the number `%d` would read at the start of the
string, 0 when there is none. -/
def atoi (s : Str) : Int :=
  match scan_int s with
  | some (v, _) => v
  | none => 0

/-- The conversion `%d` of `sprintf`: the decimal digits of `n`, with a minus
sign when negative. -/
def fmt_d (n : Int) : Str :=
  if n < 0 then '-' :: Nat.toDigits 10 n.natAbs else Nat.toDigits 10 n.toNat

/-- The line feed character. -/
def LF : Char := Char.ofNat 10

/-- What the battleship code does to the outside: `send_to_other` (a message
to the other participants of the room), `write` to standard output,
`print_board` with its title, the `fork` that starts the receiver. -/
inductive GameAction
  | send_to_other (msg : Str)
  | write (text : Str)
  | print_board (title : Str)
  | fork_receiver
  deriving DecidableEq

/-- How one turn of a battleship loop ends: the loop goes on, the process
calls `exit(0)`, the function returns, or the loop is left by `break`. -/
inductive Flow
  | next | exited | returned | left
  deriving DecidableEq

/-- The variables of `run_battleship`: the flag `receiver_started` and the two
boards.  The forked receiver works on its own copy of them. -/
structure GameState where
  receiver_started : Int
  my_board : Board
  enemy_view : Board

/-- The messages handed to `send_to_other`, in order. -/
def broadcasts : List GameAction → List Str
  | [] => []
  | GameAction.send_to_other msg :: rest => msg :: broadcasts rest
  | _ :: rest => broadcasts rest

/-- Whether a list of actions starts the receiver. -/
def starts_receiver (actions : List GameAction) : Bool :=
  actions.any (fun a => a = GameAction.fork_receiver)

/-- The branch `ATTACK RECEIVED` of the receiver for the message `rx_buf`
(which starts with `ATTACK:`).  `none` when the coordinate indexes outside
the grid. -/
def on_attack (s : GameState) (rx_buf : Str) : Option (GameState × List GameAction × Flow) :=
  let col_c := rx_buf.getD 7 (Char.ofNat 0)
  let row := atoi (rx_buf.drop 8)
  let r := row - 1
  let c := toupper col_c - 65
  match get_cell s.my_board r c with
  | none => none
  | some cell =>
    if cell = 'S' then
      let my_board := set_cell s.my_board r c 'X'
      let hit :=
        [GameAction.send_to_other ("RESULT:HIT:".toList ++ col_c :: fmt_d row),
         GameAction.write (LF :: "[!!!] WE GOT HIT! (".toList),
         GameAction.write (rx_buf.drop 7),
         GameAction.write [')', LF]]
      if all_ships_destroyed my_board = true then
        some ({ s with my_board := my_board },
          hit ++ [GameAction.send_to_other ("RESULT:WIN:".toList ++ col_c :: fmt_d row),
                  GameAction.write (LF :: "*** GAME OVER - YOU LOST ***".toList ++
                    [LF, Char.ofNat 0])],
          Flow.exited)
      else
        some ({ s with my_board := my_board },
          hit ++ [GameAction.print_board "MY BOARD STATUS".toList,
                  GameAction.write "BattleCommand> ".toList],
          Flow.next)
    else
      let my_board := if cell = '.' then set_cell s.my_board r c 'O' else s.my_board
      some ({ s with my_board := my_board },
        [GameAction.send_to_other ("RESULT:MISS:".toList ++ col_c :: fmt_d row),
         GameAction.write (LF :: "[MISS] Opponent missed.".toList ++ [LF]),
         GameAction.print_board "MY BOARD STATUS".toList,
         GameAction.write "BattleCommand> ".toList],
        Flow.next)

/-- The branch `RESULT RECEIVED` of the receiver for the message `rx_buf`
(which starts with `RESULT:`).  `none` when the coordinate indexes outside
the grid. -/
def on_result (s : GameState) (rx_buf : Str) : Option (GameState × List GameAction × Flow) :=
  let ptr := rx_buf.drop 7
  if ':' ∉ ptr then some (s, [], Flow.returned)
  else
    let type := ptr.takeWhile (fun x => x != ':')
    let coord := (ptr.dropWhile (fun x => x != ':')).tail
    let col_c := coord.getD 0 (Char.ofNat 0)
    let row : Int := ((coord.getD 1 (Char.ofNat 0)).toNat : Int) - 48
    let r := row - 1
    let c := toupper col_c - 65
    match get_cell s.enemy_view r c with
    | none => none
    | some _ =>
      if type = "HIT".toList then
        some ({ s with enemy_view := set_cell s.enemy_view r c 'X' },
          [GameAction.write (LF :: "[HIT] Direct hit!".toList ++ [LF]),
           GameAction.print_board "ENEMY BOARD".toList,
           GameAction.write "BattleCommand> ".toList],
          Flow.next)
      else if type = "WIN".toList then
        some ({ s with enemy_view := set_cell s.enemy_view r c 'X' },
          [GameAction.write (LF :: "*** YOU WON! ***".toList ++ [LF]),
           GameAction.print_board "ENEMY BOARD".toList],
          Flow.exited)
      else
        some ({ s with enemy_view := set_cell s.enemy_view r c 'O' },
          [GameAction.write (LF :: "[MISS] Shot missed.".toList ++ [LF]),
           GameAction.print_board "ENEMY BOARD".toList,
           GameAction.write "BattleCommand> ".toList],
          Flow.next)

/-- One turn of the receiver loop of `run_battleship` on a message `rx_buf`
that was read from the channel (`n > 0`). -/
def receiver_step (s : GameState) (rx_buf : Str) :
    Option (GameState × List GameAction × Flow) :=
  if rx_buf.take 7 = "ATTACK:".toList then on_attack s rx_buf
  else if rx_buf.take 7 = "RESULT:".toList then on_result s rx_buf
  else if rx_buf = "READY_MSG".toList then
    some (s,
      [GameAction.write (LF :: "[!] Enemy is ready: Let the battle begin!!!".toList ++ [LF]),
       GameAction.write "BattleCommand> ".toList],
      Flow.next)
  else some (s, [], Flow.next)

/-- One turn of the command loop of `run_battleship` on the line `buffer`
(read by `fgets`, cut at the line feed); the prompt written at the start of
the turn is left out. -/
def command_step (s : GameState) (buffer : Str) : GameState × List GameAction × Flow :=
  if buffer = "ready".toList then
    if s.receiver_started ≠ 0 then
      (s, [GameAction.write ("You are already ready!".toList ++ [LF])], Flow.next)
    else
      ({ s with receiver_started := 1 },
        [GameAction.send_to_other "READY_MSG".toList,
         GameAction.write ("Board confirmed. Waiting for opponent...".toList ++ [LF]),
         GameAction.print_board "MY FINAL BOARD".toList,
         GameAction.fork_receiver],
        Flow.next)
  else if buffer.take 6 = "place ".toList then
    if s.receiver_started ≠ 0 then
      (s, [GameAction.write
            ("Game already started. You cannot place ships anymore.".toList ++ [LF])],
        Flow.next)
    else
      ({ s with my_board := place_ship s.my_board (buffer.drop 6) },
        (if (sscanf_range (buffer.drop 6)).isSome then
          [GameAction.print_board "SHIP PLACED".toList] else []),
        Flow.next)
  else if buffer.take 7 = "attack ".toList then
    if s.receiver_started = 0 then
      (s, [GameAction.write ("Type 'ready' first!!!".toList ++ [LF])], Flow.next)
    else
      (s, [GameAction.send_to_other ("ATTACK:".toList ++ buffer.drop 7)], Flow.next)
  else if buffer = "show".toList then
    (s, [GameAction.print_board "MY BOARD".toList], Flow.next)
  else if buffer = "exit".toList then (s, [], Flow.left)
  else (s, [], Flow.next)

/-- The coordinate of the wire format for the column `col` (0 for `A` to 9
for `J`) and the row `row` (0 for row 1 to 9 for row 10): one uppercase
letter, then the row number in decimal without leading zero. -/
def coord_str (col row : Fin 10) : Str :=
  Char.ofNat (65 + col.val) :: Nat.toDigits 10 (row.val + 1)

/-! ## Tokenisation lemmas -/

theorem strtok_eq_none_of_splitters (s : Str) (h : ∀ x ∈ s, is_splitter x = true) :
    strtok s = none := by
  have h0 : s.dropWhile is_splitter = [] := List.dropWhile_eq_nil_iff.mpr h
  simp [strtok, h0]

theorem strtok_rest_length {s pch rest : Str} (h : strtok s = some (pch, rest)) :
    rest.length + pch.length ≤ s.length ∧ pch ≠ [] ∧ rest.length < s.length := by
  unfold strtok at h
  have hsuf : (s.dropWhile is_splitter).length ≤ s.length :=
    (List.dropWhile_suffix is_splitter).length_le
  cases hd : s.dropWhile is_splitter with
  | nil => simp [hd] at h
  | cons c t =>
    rw [hd] at h hsuf
    simp only [Option.some.injEq, Prod.mk.injEq] at h
    obtain ⟨h1, h2⟩ := h
    have hc : is_splitter c = false := by
      have := List.head?_dropWhile_not is_splitter s
      rw [hd] at this
      simpa using this
    have hlen := congrArg List.length
      (List.takeWhile_append_dropWhile (fun x => !is_splitter x) (c :: t))
    rw [List.length_append, h1] at hlen
    have hp : pch ≠ [] := by
      rw [← h1]; simp [List.takeWhile_cons, hc]
    have hpl : 0 < pch.length := List.length_pos.mpr hp
    have hr : rest.length ≤ ((c :: t).dropWhile (fun x => !is_splitter x)).length := by
      rw [← h2]; simp
    refine ⟨by omega, hp, by omega⟩

theorem strtok_token_no_splitter {s pch rest : Str} (h : strtok s = some (pch, rest)) :
    ∀ x ∈ pch, is_splitter x = false := by
  unfold strtok at h
  cases hd : s.dropWhile is_splitter with
  | nil => simp [hd] at h
  | cons c t =>
    rw [hd] at h
    simp only [Option.some.injEq, Prod.mk.injEq] at h
    intro x hx
    rw [← h.1] at hx
    simpa using List.mem_takeWhile_imp hx

theorem strtok_append (ws tok rest : Str) (hws : ∀ x ∈ ws, is_splitter x = true)
    (htok : tok ≠ []) (hns : ∀ x ∈ tok, is_splitter x = false)
    (hrest : ∀ x, rest.head? = some x → is_splitter x = true) :
    strtok (ws ++ tok ++ rest) = some (tok, rest.tail) := by
  obtain ⟨c, t, rfl⟩ := List.exists_cons_of_ne_nil htok
  have hc : is_splitter c = false := hns c (by simp)
  have h0 : (ws ++ (c :: t) ++ rest).dropWhile is_splitter = c :: (t ++ rest) := by
    rw [List.append_assoc, List.dropWhile_append_of_pos hws]
    simp [List.dropWhile_cons, hc]
  have h1 : (c :: (t ++ rest)).takeWhile (fun x => !is_splitter x) = c :: t := by
    have : c :: (t ++ rest) = (c :: t) ++ rest := rfl
    rw [this, List.takeWhile_append_of_pos (by intro a ha; simp [hns a ha])]
    cases rest with
    | nil => simp
    | cons d r => simp [List.takeWhile_cons, hrest d rfl]
  have h2 : (c :: (t ++ rest)).dropWhile (fun x => !is_splitter x) = rest := by
    have : c :: (t ++ rest) = (c :: t) ++ rest := rfl
    rw [this, List.dropWhile_append_of_pos (by intro a ha; simp [hns a ha])]
    cases rest with
    | nil => simp
    | cons d r => simp [List.dropWhile_cons, hrest d rfl]
  simp only [strtok, h0, h1, h2]

theorem trim_token (tok : Str) (hns : ∀ x ∈ tok, is_splitter x = false) :
    trim_right (trim_left tok) = tok := by
  have h1 : trim_left tok = tok := by
    cases tok with
    | nil => rfl
    | cons c t => simp [trim_left, List.dropWhile_cons, hns c (by simp)]
  rw [h1]
  have h2 : tok.reverse.dropWhile is_splitter = tok.reverse := by
    cases hr : tok.reverse with
    | nil => rfl
    | cons c t =>
      have : c ∈ tok := by
        have : c ∈ tok.reverse := by rw [hr]; simp
        simpa using this
      simp [List.dropWhile_cons, hns c this]
  simp [trim_right, h2]

theorem trim_length_le (buf : Str) : (trim_right (trim_left buf)).length ≤ buf.length := by
  have h1 : (trim_left buf).length ≤ buf.length :=
    (List.dropWhile_suffix is_splitter).length_le
  have h2 : (trim_right (trim_left buf)).length ≤ (trim_left buf).length := by
    unfold trim_right
    rw [List.length_reverse]
    exact ((List.dropWhile_suffix is_splitter).length_le).trans (by simp)
  omega

/-! ## Tokens of a line -/

theorem tokens_fuel_enough (n : Nat) : ∀ (m : Nat) (s : Str),
    s.length ≤ n → s.length ≤ m → tokens_fuel n s = tokens_fuel m s := by
  induction n with
  | zero =>
    intro m s hn _
    have : s = [] := List.length_eq_zero.mp (by omega)
    subst this
    cases m <;> simp [tokens_fuel, strtok]
  | succ n ih =>
    intro m s hn hm
    cases m with
    | zero =>
      have : s = [] := List.length_eq_zero.mp (by omega)
      subst this
      simp [tokens_fuel, strtok]
    | succ m =>
      simp only [tokens_fuel]
      cases hs : strtok s with
      | none => rfl
      | some p =>
        obtain ⟨pch, rest⟩ := p
        have hr := strtok_rest_length hs
        simp only []
        rw [ih m rest (by omega) (by omega)]

theorem tokens_eq (s : Str) :
    tokens s = (match strtok s with
                | none => []
                | some (pch, rest) => pch :: tokens rest) := by
  unfold tokens
  cases hl : s.length with
  | zero =>
    have : s = [] := List.length_eq_zero.mp hl
    subst this
    simp [tokens_fuel, strtok]
  | succ n =>
    simp only [tokens_fuel]
    cases hs : strtok s with
    | none => rfl
    | some p =>
      obtain ⟨pch, rest⟩ := p
      have hr := strtok_rest_length hs
      simp only []
      rw [tokens_fuel_enough n rest.length rest (by omega) (Nat.le_refl _)]

theorem strtok_decomp {s pch rest : Str} (h : strtok s = some (pch, rest)) :
    ∃ ws r, s = ws ++ pch ++ r ∧ (∀ x ∈ ws, is_splitter x = true) ∧
      (∀ x, r.head? = some x → is_splitter x = true) ∧ rest = r.tail := by
  unfold strtok at h
  cases hd : s.dropWhile is_splitter with
  | nil => simp [hd] at h
  | cons c t =>
    rw [hd] at h
    simp only [Option.some.injEq, Prod.mk.injEq] at h
    refine ⟨s.takeWhile is_splitter, (c :: t).dropWhile (fun x => !is_splitter x), ?_, ?_, ?_, ?_⟩
    · rw [← h.1, List.append_assoc, List.takeWhile_append_dropWhile, ← hd,
        List.takeWhile_append_dropWhile]
    · intro x hx
      exact List.mem_takeWhile_imp hx
    · intro x hx
      have := List.head?_dropWhile_not (fun x => !is_splitter x) (c :: t)
      rw [hx] at this
      simpa using this
    · exact h.2.symm

theorem strtok_none_splitters {s : Str} (h : strtok s = none) :
    ∀ x ∈ s, is_splitter x = true := by
  unfold strtok at h
  cases hd : s.dropWhile is_splitter with
  | nil => exact List.dropWhile_eq_nil_iff.mp hd
  | cons c t => simp [hd] at h

theorem tokens_of_splitters (s : Str) (h : ∀ x ∈ s, is_splitter x = true) : tokens s = [] := by
  rw [tokens_eq, strtok_eq_none_of_splitters s h]

theorem trim_right_append_keep (a b : Str) (hb : ∃ x ∈ b, is_splitter x = false) :
    trim_right (a ++ b) = a ++ trim_right b := by
  unfold trim_right
  rw [List.reverse_append, List.dropWhile_append]
  have hne : b.reverse.dropWhile is_splitter ≠ [] := by
    intro h0
    obtain ⟨x, hx, hxs⟩ := hb
    have := List.dropWhile_eq_nil_iff.mp h0 x (by simpa using hx)
    simp [hxs] at this
  have : (b.reverse.dropWhile is_splitter).isEmpty = false := by
    cases hd : b.reverse.dropWhile is_splitter with
    | nil => exact absurd hd hne
    | cons _ _ => rfl
  simp [this]

theorem trim_right_append_drop (a b : Str) (hb : ∀ x ∈ b, is_splitter x = true) :
    trim_right (a ++ b) = trim_right a := by
  unfold trim_right
  rw [List.reverse_append, List.dropWhile_append_of_pos (by simpa using hb)]

theorem trim_right_token (tok : Str) (hns : ∀ x ∈ tok, is_splitter x = false) :
    trim_right tok = tok := by
  have h := trim_token tok hns
  have h1 : trim_left tok = tok := by
    cases tok with
    | nil => rfl
    | cons c t => simp [trim_left, List.dropWhile_cons, hns c (by simp)]
  rwa [h1] at h

theorem tokens_trim_left (s : Str) : tokens (trim_left s) = tokens s := by
  rw [tokens_eq, tokens_eq s]
  have : strtok (trim_left s) = strtok s := by
    simp [strtok, trim_left, List.dropWhile_idempotent]
  rw [this]

theorem tokens_trim_right_aux (n : Nat) : ∀ s : Str, s.length ≤ n →
    tokens (trim_right s) = tokens s := by
  induction n with
  | zero =>
    intro s hs
    have : s = [] := List.length_eq_zero.mp (by omega)
    subst this
    rfl
  | succ n ih =>
    intro s hs
    cases hst : strtok s with
    | none =>
      have hall := strtok_none_splitters hst
      have h0 := trim_right_append_drop [] s hall
      simp only [List.nil_append] at h0
      rw [h0, tokens_of_splitters s hall]
      rfl
    | some p =>
      obtain ⟨pch, rest⟩ := p
      obtain ⟨ws, r, hsd, hws, hr, hrest⟩ := strtok_decomp hst
      have hlen := strtok_rest_length hst
      have hns := strtok_token_no_splitter hst
      have hpne := hlen.2.1
      by_cases hall : ∀ x ∈ r, is_splitter x = true
      · have hrest_all : ∀ x ∈ rest, is_splitter x = true := by
          intro x hx
          rw [hrest] at hx
          exact hall x (List.mem_of_mem_tail hx)
        have h1 : trim_right s = ws ++ pch := by
          rw [hsd, trim_right_append_drop _ r hall]
          obtain ⟨x, hx⟩ := List.exists_mem_of_ne_nil pch hpne
          rw [trim_right_append_keep ws pch ⟨x, hx, hns x hx⟩, trim_right_token pch hns]
        have h2 : strtok (ws ++ pch ++ []) = some (pch, []) :=
          strtok_append ws pch [] hws hpne hns (by simp)
        rw [List.append_nil] at h2
        rw [tokens_eq s, hst, tokens_eq (trim_right s), h1, h2]
        simp only []
        rw [tokens_of_splitters rest hrest_all, tokens_of_splitters [] (by simp)]
      · have hex : ∃ x ∈ r, is_splitter x = false := by
          by_contra hcon
          apply hall
          intro x hx
          by_contra hx2
          exact hcon ⟨x, hx, by simpa using hx2⟩
        cases hrc : r with
        | nil => rw [hrc] at hex; simp at hex
        | cons d r1 =>
          rw [hrc] at hr hrest hsd hex
          have hd : is_splitter d = true := hr d rfl
          simp only [List.tail_cons] at hrest
          subst hrest
          have hex1 : ∃ x ∈ rest, is_splitter x = false := by
            obtain ⟨x, hx, hxs⟩ := hex
            rcases List.mem_cons.mp hx with h | h
            · rw [h, hd] at hxs; exact absurd hxs (by simp)
            · exact ⟨x, h, hxs⟩
          have h1 : trim_right s = ws ++ pch ++ (d :: trim_right rest) := by
            rw [hsd, trim_right_append_keep _ _ hex]
            have : d :: rest = [d] ++ rest := rfl
            rw [this, trim_right_append_keep _ _ hex1]
            rfl
          have h2 : strtok (ws ++ pch ++ (d :: trim_right rest)) = some (pch, trim_right rest) :=
            strtok_append ws pch _ hws hpne hns (by intro x hx; simp at hx; rw [← hx]; exact hd)
          rw [tokens_eq s, hst, tokens_eq (trim_right s), h1, h2]
          simp only []
          rw [ih rest (by omega)]

theorem tokens_trim (s : Str) : tokens (trim_right (trim_left s)) = tokens s := by
  rw [tokens_trim_right_aux _ _ (Nat.le_refl _), tokens_trim_left]

/-! ## The tokens are the maximal runs of characters other than blank and tab -/

theorem splitOnP_splitters_append (ws s : Str) (hws : ∀ x ∈ ws, is_splitter x = true) :
    ((ws ++ s).splitOnP is_splitter).filter (fun t => !t.isEmpty) =
      (s.splitOnP is_splitter).filter (fun t => !t.isEmpty) := by
  induction ws with
  | nil => rfl
  | cons w ws ih =>
    have hw : is_splitter w = true := hws w (by simp)
    rw [List.cons_append, List.splitOnP_cons, if_pos hw]
    simp only [List.filter_cons, List.isEmpty_nil, Bool.not_true]
    exact ih (fun x hx => hws x (List.mem_cons_of_mem _ hx))

theorem tokens_eq_splitOnP_aux (n : Nat) : ∀ s : Str, s.length ≤ n →
    tokens s = (s.splitOnP is_splitter).filter (fun t => !t.isEmpty) := by
  induction n with
  | zero =>
    intro s hs
    have : s = [] := List.length_eq_zero.mp (by omega)
    subst this
    rfl
  | succ n ih =>
    intro s hs
    rw [tokens_eq]
    cases hst : strtok s with
    | none =>
      have hall := strtok_none_splitters hst
      have h := splitOnP_splitters_append s [] hall
      rw [List.append_nil] at h
      rw [h]
      rfl
    | some p =>
      obtain ⟨pch, rest⟩ := p
      obtain ⟨ws, r, hsd, hws, hr, hrest⟩ := strtok_decomp hst
      have hlen := strtok_rest_length hst
      have hns := strtok_token_no_splitter hst
      have hpne : pch.isEmpty = false := by
        cases pch with
        | nil => exact absurd rfl hlen.2.1
        | cons _ _ => rfl
      have hns2 : ∀ x ∈ pch, ¬ (is_splitter x = true) := by
        intro x hx; simp [hns x hx]
      simp only []
      rw [hsd, List.append_assoc, splitOnP_splitters_append ws _ hws]
      cases hrc : r with
      | nil =>
        rw [hrc] at hrest
        simp only [List.tail_nil] at hrest
        rw [List.append_nil, List.splitOnP_eq_single is_splitter pch hns2, hrest]
        simp only [List.filter_cons, hpne, Bool.not_false, if_true, List.filter_nil]
        rfl
      | cons d r1 =>
        rw [hrc] at hr hrest
        have hd : is_splitter d = true := hr d rfl
        simp only [List.tail_cons] at hrest
        subst hrest
        rw [List.splitOnP_first is_splitter pch hns2 d hd]
        simp only [List.filter_cons, hpne, Bool.not_false, if_true]
        rw [ih rest (by omega)]

theorem tokens_eq_splitOnP (s : Str) :
    tokens s = (s.splitOnP is_splitter).filter (fun t => !t.isEmpty) :=
  tokens_eq_splitOnP_aux _ s (Nat.le_refl _)

/-! ## Redirect and quote handling of one token -/

theorem parse_token_input (c : command_t) (p : Str) :
    parse_token c ('<' :: p) = { c with redirects := Function.update c.redirects 0 (some p) } := by
  simp only [parse_token, redirect_index]
  simp
  funext j
  fin_cases j <;> simp [Function.update]

theorem parse_token_truncate (c : command_t) (p : Str) (hp : p.head? ≠ some '>') :
    parse_token c ('>' :: p) = { c with redirects := Function.update c.redirects 1 (some p) } := by
  simp only [parse_token, redirect_index]
  simp [hp]
  funext j
  fin_cases j <;> simp [Function.update]

theorem parse_token_append (c : command_t) (p : Str) :
    parse_token c ('>' :: '>' :: p)
      = { c with redirects := Function.update c.redirects 2 (some p) } := by
  simp only [parse_token, redirect_index]
  simp
  funext j
  fin_cases j <;> simp [Function.update]

theorem parse_token_positional (c : command_t) (tok : Str) (h : is_positional tok = true) :
    parse_token c tok = { c with args := c.args ++ [some (strip_quotes tok)] } := by
  simp only [is_positional, decide_eq_true_eq] at h
  obtain ⟨h1, h2, h3⟩ := h
  simp [parse_token, redirect_index, h1, h2, h3]

/-- The token loop leaves the name and the two flags alone. -/
theorem finish_args_frame (c : command_t) :
    (finish_args c).name = c.name ∧ (finish_args c).background = c.background ∧
    (finish_args c).auto_complete = c.auto_complete ∧
    (finish_args c).redirects = c.redirects ∧ (finish_args c).next = c.next := by
  simp [finish_args]

theorem parse_token_frame (c : command_t) (arg : Str) :
    (parse_token c arg).name = c.name ∧ (parse_token c arg).background = c.background ∧
    (parse_token c arg).auto_complete = c.auto_complete := by
  unfold parse_token
  split
  · simp
  · split
    split <;> simp

/-! ## The argument array -/

theorem shift_args_append (pre : List (Option Str)) :
    ∀ (x : Option Str) (post : List (Option Str)),
      shift_args pre.length (pre ++ x :: post) =
        (match pre with
         | [] => x :: post
         | a :: p => a :: a :: p ++ post) := by
  induction pre using List.reverseRecOn with
  | nil => intro x post; rfl
  | append_singleton pre y ih =>
    intro x post
    have h1 : (pre ++ [y] ++ x :: post).getD pre.length none = y := by
      rw [List.append_assoc, List.getD_eq_getElem?_getD,
        List.getElem?_append_right (Nat.le_refl _)]
      simp
    have h2 : (pre ++ [y] ++ x :: post).set (pre.length + 1) y = pre ++ y :: y :: post := by
      rw [List.append_assoc, List.set_append_right _ _ (by omega)]
      simp
    rw [List.length_append, List.length_singleton, shift_args, h1, h2, ih y (y :: post)]
    cases pre <;> simp

theorem finish_args_args (c : command_t) :
    (finish_args c).args = some c.name :: c.args ++ [none] ∧
    (finish_args c).arg_count = (c.args.length : Int) + 2 := by
  have h := shift_args_append c.args none [none]
  refine ⟨?_, by simp [finish_args]⟩
  simp only [finish_args, Nat.add_sub_cancel]
  rw [h]
  cases hc : c.args with
  | nil => simp
  | cons a p =>
    simp only [List.set_cons_zero, List.length_cons, Nat.add_sub_cancel]
    have : (some c.name :: a :: p ++ [none]).set (p.length + 1 + 1) none
        = some c.name :: a :: (p ++ [none]) := by
      simp [List.set_append_right]
    simp

theorem parse_token_args (c : command_t) (tok : Str) :
    (parse_token c tok).name = c.name ∧
    (parse_token c tok).args =
      if is_positional tok = true then c.args ++ [some (strip_quotes tok)] else c.args := by
  by_cases h : is_positional tok = true
  · rw [parse_token_positional c tok h]; simp [h]
  · refine ⟨(parse_token_frame c tok).1, ?_⟩
    simp only [h, if_false]
    simp only [is_positional, decide_eq_true_eq, not_and_or, not_not] at h
    unfold parse_token
    by_cases h1 : tok = ['&']
    · simp [h1]
    · have h2 : tok.head? = some '<' ∨ tok.head? = some '>' := by
        rcases h with h | h | h
        · exact absurd h h1
        · exact Or.inl h
        · exact Or.inr h
      simp only [h1, if_false]
      rcases h2 with h2 | h2
      · simp [redirect_index, h2]
      · by_cases h3 : tok.length > 1 ∧ tok.tail.head? = some '>'
        · simp only [redirect_index, h2, h3, if_true]
          simp
        · simp only [redirect_index, h2, h3, if_true, if_false]
          simp

theorem positional_args_cons (t : Str) (toks : List Str) (ht : t ≠ ['|']) :
    positional_args (t :: toks) =
      if is_positional t = true then t :: positional_args toks else positional_args toks := by
  simp only [positional_args, List.takeWhile_cons, ht, ne_eq, not_false_eq_true, decide_True,
    if_true, List.filter_cons]

theorem positional_args_pipe (toks : List Str) : positional_args (['|'] :: toks) = [] := by
  simp [positional_args, List.takeWhile_cons]

theorem trimmed_getLast (pre ws : Str) (ch : Char) (hch : is_splitter ch = false)
    (hws : ∀ x ∈ ws, is_splitter x = true) :
    (trim_right (trim_left (pre ++ ch :: ws))).getLast? = some ch := by
  have h1 : trim_left (pre ++ ch :: ws) = pre.dropWhile is_splitter ++ ch :: ws := by
    unfold trim_left
    rw [List.dropWhile_append]
    cases hd : pre.dropWhile is_splitter with
    | nil => simp [List.dropWhile_cons, hch]
    | cons a t => simp
  have h2 : pre.dropWhile is_splitter ++ ch :: ws = (pre.dropWhile is_splitter ++ [ch]) ++ ws := by
    simp
  rw [h1, h2, trim_right_append_drop _ ws hws,
    trim_right_append_keep _ [ch] ⟨ch, by simp, hch⟩,
    trim_right_token [ch] (by intro x hx; simp at hx; rw [hx]; exact hch)]
  simp

theorem tokens_single (w : Str) (hw : w ≠ []) (hns : ∀ x ∈ w, is_splitter x = false) :
    tokens w = [w] := by
  have h := strtok_append [] w [] (by simp) hw hns (by simp)
  simp only [List.nil_append, List.append_nil, List.tail_nil] at h
  rw [tokens_eq, h]
  simp only []
  rw [tokens_of_splitters [] (by simp)]

theorem strip_quotes_wrapped (q : Char) (s : Str)
    (hq : q = Char.ofNat 34 ∨ q = Char.ofNat 39) (hs : s ≠ []) :
    strip_quotes (q :: s ++ [q]) = s := by
  have hlen : (q :: s ++ [q]).length > 2 := by
    have := List.length_pos.mpr hs
    simp only [List.cons_append, List.length_cons, List.length_append, List.length_singleton]
    omega
  have hlast : (q :: s ++ [q]).getLast? = some q := by
    have : q :: s ++ [q] = (q :: s) ++ [q] := rfl
    rw [this, List.getLast?_concat]
  have hhead : (q :: s ++ [q]).head? = some q := rfl
  have hd : (q :: s ++ [q]).dropLast.tail = s := by
    have : q :: s ++ [q] = (q :: s) ++ [q] := rfl
    rw [this, List.dropLast_concat]
    rfl
  unfold strip_quotes
  rw [hd, hlast, hhead]
  rcases hq with h | h <;> simp [h, hs]

theorem strip_quotes_unwrapped (tok : Str)
    (h : ¬ ∃ q s, (q = Char.ofNat 34 ∨ q = Char.ofNat 39) ∧ tok = q :: s ++ [q]) :
    strip_quotes tok = tok := by
  unfold strip_quotes
  split
  · rename_i hc
    exfalso
    apply h
    obtain ⟨hlen, hq⟩ := hc
    have key : ∀ q, tok.head? = some q → tok.getLast? = some q → ∃ s, tok = q :: s ++ [q] := by
      intro q h1 h2
      cases tok with
      | nil => simp at h1
      | cons a t =>
        simp only [List.head?_cons, Option.some.injEq] at h1
        subst h1
        have htne : t ≠ [] := by
          intro h0; subst h0; simp at hlen
        refine ⟨t.dropLast, ?_⟩
        have h3 : (a :: t).getLast? = t.getLast? := by
          cases t with
          | nil => exact absurd rfl htne
          | cons b u => simp
        rw [h3, List.getLast?_eq_getLast t htne] at h2
        simp only [Option.some.injEq] at h2
        have := List.dropLast_append_getLast htne
        rw [h2] at this
        rw [List.cons_append, this]
    rcases hq with ⟨h1, h2⟩ | ⟨h1, h2⟩
    · obtain ⟨s, hs⟩ := key _ h1 h2
      exact ⟨_, s, Or.inl rfl, hs⟩
    · obtain ⟨s, hs⟩ := key _ h1 h2
      exact ⟨_, s, Or.inr rfl, hs⟩
  · rfl

theorem parse_token_next (c : command_t) (tok : Str) : (parse_token c tok).next = c.next := by
  unfold parse_token
  split
  · rfl
  · split
    split <;> rfl

/-! ## The parser computes the token-level parser -/

theorem right_trimmed_trim_right (s : Str) : right_trimmed (trim_right s) := by
  intro x hx
  unfold trim_right at hx
  rw [List.getLast?_reverse] at hx
  cases hd : s.reverse.dropWhile is_splitter with
  | nil => rw [hd] at hx; simp at hx
  | cons a t =>
    rw [hd] at hx
    simp only [List.head?_cons, Option.some.injEq] at hx
    subst hx
    have := List.head_dropWhile_not is_splitter s.reverse (by rw [hd]; simp)
    simp only [hd, List.head_cons] at this
    simpa using this

theorem getLast?_append_of_ne_nil (a b : Str) (hb : b ≠ []) :
    (a ++ b).getLast? = b.getLast? := by
  rw [List.getLast?_eq_getLast _ (by simp [hb]), List.getLast?_eq_getLast _ hb,
    List.getLast_append_of_ne_nil]

/-- The shape of the text at a `strtok` position that holds a token. -/
theorem strtok_shape {s pch rest : Str} (h : strtok s = some (pch, rest)) :
    ∃ ws r, s = ws ++ pch ++ r ∧ (∀ x ∈ ws, is_splitter x = true) ∧
      (r = [] ∨ ∃ x, is_splitter x = true ∧ r = x :: rest) ∧ rest = r.tail ∧
      ends_line s = r.isEmpty := by
  unfold strtok at h
  cases hd : s.dropWhile is_splitter with
  | nil => simp [hd] at h
  | cons c t =>
    rw [hd] at h
    simp only [Option.some.injEq, Prod.mk.injEq] at h
    obtain ⟨h1, h2⟩ := h
    refine ⟨s.takeWhile is_splitter, (c :: t).dropWhile (fun x => !is_splitter x), ?_, ?_, ?_,
      h2.symm, ?_⟩
    · rw [← h1, List.append_assoc, List.takeWhile_append_dropWhile, ← hd,
        List.takeWhile_append_dropWhile]
    · intro x hx
      exact List.mem_takeWhile_imp hx
    · cases hr : (c :: t).dropWhile (fun x => !is_splitter x) with
      | nil => exact Or.inl rfl
      | cons y u =>
        right
        have := List.head_dropWhile_not (fun x => !is_splitter x) (c :: t) (by rw [hr]; simp)
        simp only [hr, List.head_cons] at this
        refine ⟨y, by simpa using this, ?_⟩
        rw [← h2, hr]
        rfl
    · unfold ends_line
      rw [hd]

theorem right_trimmed_rest {s pch rest : Str} (hs : right_trimmed s)
    (h : strtok s = some (pch, rest)) : right_trimmed rest := by
  obtain ⟨ws, r, hsr, _, hr, _, _⟩ := strtok_shape h
  intro x hx
  rcases hr with hr | ⟨y, _, hr⟩
  · subst hr
    have hne : rest ≠ [] := by intro h0; rw [h0] at hx; simp at hx
    have : rest = [] := by simp_all
    exact absurd this hne
  · apply hs x
    have hne : rest ≠ [] := by intro h0; rw [h0] at hx; simp at hx
    have h1 : s = (ws ++ pch ++ [y]) ++ rest := by rw [hsr, hr]; simp
    rw [h1, getLast?_append_of_ne_nil _ _ hne]
    exact hx

theorem tokens_eq_nil_iff (s : Str) : tokens s = [] ↔ ∀ x ∈ s, is_splitter x = true := by
  constructor
  · intro h
    rw [tokens_eq] at h
    cases hs : strtok s with
    | none => exact strtok_none_splitters hs
    | some p => rw [hs] at h; simp at h
  · exact tokens_of_splitters s

theorem right_trimmed_splitters_nil (s : Str) (hs : right_trimmed s)
    (h : ∀ x ∈ s, is_splitter x = true) : s = [] := by
  by_contra hne
  have h1 := hs (s.getLast hne) (List.getLast?_eq_getLast _ hne)
  have h2 := h (s.getLast hne) (List.getLast_mem hne)
  rw [h1] at h2
  exact absurd h2 (by decide)

/-- On a right-trimmed line a token ends the line exactly when no token
follows it. -/
theorem ends_line_iff {s pch rest : Str} (hs : right_trimmed s)
    (h : strtok s = some (pch, rest)) : ends_line s = true ↔ tokens rest = [] := by
  obtain ⟨ws, r, hsr, _, hr, hrest, he⟩ := strtok_shape h
  rw [he]
  constructor
  · intro h0
    have : r = [] := by simpa using h0
    rw [hrest, this]
    rfl
  · intro h0
    have hall := (tokens_eq_nil_iff rest).mp h0
    have := right_trimmed_splitters_nil rest (right_trimmed_rest hs h) hall
    rcases hr with hr | ⟨y, hy, hr⟩
    · rw [hr]; rfl
    · exfalso
      have h1 : s = (ws ++ pch) ++ [y] := by rw [hsr, hr, this]
      have h2 := hs y (by rw [h1, List.getLast?_concat])
      rw [hy] at h2
      exact absurd h2 (by decide)

/-- The length left after a token that does not end the line. -/
theorem strtok_rest_length_inner {s pch rest : Str} (h : strtok s = some (pch, rest))
    (he : ends_line s = false) : rest.length + pch.length + 1 ≤ s.length := by
  obtain ⟨ws, r, hsr, _, hr, _, he1⟩ := strtok_shape h
  rw [he1] at he
  rcases hr with hr | ⟨y, _, hr⟩
  · rw [hr] at he; simp at he
  · rw [hsr, hr]
    simp only [List.length_append, List.length_cons]
    omega

theorem getLast_tokens_aux (n : Nat) : ∀ s : Str, s.length ≤ n → right_trimmed s →
    s.getLast? = (tokens s).getLast?.bind List.getLast? := by
  induction n with
  | zero =>
    intro s hn _
    have : s = [] := List.length_eq_zero.mp (by omega)
    subst this
    rfl
  | succ n ih =>
    intro s hn hs
    rw [tokens_eq]
    cases h : strtok s with
    | none =>
      have := right_trimmed_splitters_nil s hs (strtok_none_splitters h)
      subst this
      rfl
    | some p =>
      obtain ⟨pch, rest⟩ := p
      simp only []
      have hlen := strtok_rest_length h
      have hrt := right_trimmed_rest hs h
      obtain ⟨ws, r, hsr, _, hr, _, _⟩ := strtok_shape h
      by_cases h0 : tokens rest = []
      · have hrn := right_trimmed_splitters_nil rest hrt ((tokens_eq_nil_iff rest).mp h0)
        rw [h0]
        simp only [List.getLast?_singleton, Option.some_bind]
        rcases hr with hr | ⟨y, hy, hr⟩
        · rw [hsr, hr, List.append_nil, getLast?_append_of_ne_nil _ _ hlen.2.1]
        · exfalso
          have h1 : s = (ws ++ pch) ++ [y] := by rw [hsr, hr, hrn]
          have h2 := hs y (by rw [h1, List.getLast?_concat])
          rw [hy] at h2
          exact absurd h2 (by decide)
      · have hne : rest ≠ [] := by
          intro h1
          apply h0
          rw [h1]
          rfl
        have h1 : (pch :: tokens rest).getLast? = (tokens rest).getLast? := by
          cases ht : tokens rest with
          | nil => exact absurd ht h0
          | cons a t => simp
        rw [h1, ← ih rest (by omega) hrt]
        rcases hr with hr | ⟨y, _, hr⟩
        · exfalso
          rename_i hrest _
          rw [hr] at hrest
          exact hne hrest
        · have h2 : s = (ws ++ pch ++ [y]) ++ rest := by rw [hsr, hr]; simp
          rw [h2, getLast?_append_of_ne_nil _ _ hne]

/-- The last character of the trimmed line is the last character of the last
token. -/
theorem trim_getLast_tokens (buf : Str) :
    (trim_right (trim_left buf)).getLast? = (tokens buf).getLast?.bind List.getLast? := by
  rw [getLast_tokens_aux _ _ (Nat.le_refl _) (right_trimmed_trim_right _), tokens_trim]

theorem parse_loop_nil (n : Nat) (fresh : Nat → command_t) (c : command_t) :
    parse_loop (n + 1) fresh [] c = some (finish_args c) := by
  simp [parse_loop, strtok]

theorem parse_refines_aux (n : Nat) :
    (∀ (fresh : Nat → command_t) (buf : Str) (c : command_t), buf.length + 2 ≤ n →
      parse_command_fuel n fresh buf c = parse_tokens fresh (tokens buf) c) ∧
    (∀ (fresh : Nat → command_t) (pos : Str) (c : command_t), right_trimmed pos →
      pos.length + 1 ≤ n →
      parse_loop n fresh pos c = parse_tokens_loop fresh (tokens pos) c) := by
  induction n with
  | zero =>
    exact ⟨fun _ _ _ h => by omega, fun _ _ _ _ h => by omega⟩
  | succ n ih =>
    obtain ⟨ihc, ihl⟩ := ih
    constructor
    · intro fresh buf c hn
      have hb := trim_length_le buf
      have hrt := right_trimmed_trim_right (trim_left buf)
      have hlast := trim_getLast_tokens buf
      have htok := tokens_trim buf
      simp only [parse_command_fuel]
      rw [tokens_eq] at htok
      cases hs : strtok (trim_right (trim_left buf)) with
      | none =>
        rw [hs] at htok
        have hnil := right_trimmed_splitters_nil _ hrt (strtok_none_splitters hs)
        obtain ⟨m, rfl⟩ : ∃ k, n = k + 1 := ⟨n - 1, by omega⟩
        rw [← htok, hnil]
        simp only [parse_loop_nil, parse_tokens, List.getLast?_nil]
      | some p =>
        obtain ⟨pch, rest⟩ := p
        rw [hs] at htok
        simp only [] at htok
        have hr := strtok_rest_length hs
        simp only []
        rw [ihl fresh rest _ (right_trimmed_rest hrt hs) (by omega), hlast, ← htok]
        simp only [parse_tokens]
    · intro fresh pos c hrt hn
      simp only [parse_loop]
      rw [tokens_eq]
      cases hs : strtok pos with
      | none => simp only [parse_tokens_loop]
      | some p =>
        obtain ⟨pch, rest⟩ := p
        have hr := strtok_rest_length hs
        have hp : pch.length ≠ 0 := by
          have := List.length_pos.mpr hr.2.1
          omega
        have ht := trim_token pch (strtok_token_no_splitter hs)
        simp only [ht, hp, if_false, parse_tokens_loop]
        by_cases hfit : pch.length + 1 > TEMP_BUF_SIZE
        · simp only [hfit, if_true]
        · simp only [hfit, if_false]
          by_cases hpipe : pch = ['|']
          · subst hpipe
            simp only [if_true]
            have hiff := ends_line_iff hrt hs
            by_cases he : ends_line pos = true
            · simp only [he, if_true, hiff.mp he]
            · have hne : tokens rest ≠ [] := fun h0 => he (hiff.mpr h0)
              have he0 : ends_line pos = false := by simpa using he
              have hl := strtok_rest_length_inner hs he0
              simp only [List.length_singleton] at hl
              have h1 : (['|'] ++ ' ' :: rest).drop 1 = ' ' :: rest := rfl
              have h2 : is_splitter ' ' = true := by decide
              have h3 : ((['|'] ++ ' ' :: rest).drop 1).dropWhile is_splitter
                  = trim_left rest := by
                rw [h1, List.dropWhile_cons_of_pos h2]
                rfl
              have h4 : (trim_left rest).length ≤ rest.length :=
                (List.dropWhile_suffix is_splitter).length_le
              simp only [he0, hne, if_false, h3, Bool.false_eq_true]
              rw [ihc _ (trim_left rest) _ (by omega), tokens_trim_left]
          · simp only [hpipe, if_false]
            exact ihl fresh rest _ (right_trimmed_rest hrt hs) (by omega)

/-- The function `parse_command` computes the token-level parser on the tokens of the line. -/
theorem parse_command_tokens (fresh : Nat → command_t) (buf : Str) (c : command_t) :
    parse_command fresh buf c = parse_tokens fresh (tokens buf) c :=
  (parse_refines_aux _).1 fresh buf c (Nat.le_refl _)

/-! ## The result of the token-level parser, stage by stage -/

theorem redirect_kind_positional (t : Str) (h : (redirect_kind t).isSome = true) :
    is_positional t = false := by
  unfold redirect_kind at h
  split at h <;> simp_all [is_positional]

theorem parse_token_redirects (c : command_t) (t : Str) (j : Fin 3) :
    (parse_token c t).redirects j =
      match redirect_kind t with
      | some (i, p) => if i = j then some p else c.redirects j
      | none => c.redirects j := by
  by_cases hpos : is_positional t = true
  · rw [parse_token_positional c t hpos]
    have : redirect_kind t = none := by
      cases h : redirect_kind t with
      | none => rfl
      | some x =>
        have := redirect_kind_positional t (by rw [h]; rfl)
        rw [this] at hpos
        exact absurd hpos (by decide)
    rw [this]
  · by_cases h1 : t = ['&']
    · subst h1; rfl
    · by_cases h2 : t.head? = some '<'
      · obtain ⟨p, rfl⟩ : ∃ p, t = '<' :: p := by
          cases t with
          | nil => simp at h2
          | cons a p => simp only [List.head?_cons, Option.some.injEq] at h2; exact ⟨p, by rw [h2]⟩
        rw [parse_token_input]
        simp only [redirect_kind]
        fin_cases j <;> simp [Function.update]
      · by_cases h3 : t.head? = some '>'
        · obtain ⟨p, rfl⟩ : ∃ p, t = '>' :: p := by
            cases t with
            | nil => simp at h3
            | cons a p =>
              simp only [List.head?_cons, Option.some.injEq] at h3; exact ⟨p, by rw [h3]⟩
          by_cases h4 : p.head? = some '>'
          · obtain ⟨u, rfl⟩ : ∃ u, p = '>' :: u := by
              cases p with
              | nil => simp at h4
              | cons a u =>
                simp only [List.head?_cons, Option.some.injEq] at h4; exact ⟨u, by rw [h4]⟩
            rw [parse_token_append]
            simp only [redirect_kind]
            fin_cases j <;> simp [Function.update]
          · rw [parse_token_truncate c p h4]
            have : redirect_kind ('>' :: p) = some (1, p) := by
              cases p with
              | nil => rfl
              | cons a u =>
                have ha : a ≠ '>' := by simpa using h4
                unfold redirect_kind
                split <;> simp_all
            rw [this]
            fin_cases j <;> simp [Function.update]
        · exfalso
          apply hpos
          simp [is_positional, h1, h2, h3]

theorem last_redirect_nil (j : Fin 3) : last_redirect j [] = none := rfl

theorem last_redirect_cons (j : Fin 3) (t : Str) (pre : List Str) :
    last_redirect j (t :: pre) =
      match last_redirect j pre with
      | some p => some p
      | none =>
        match redirect_kind t with
        | some (i, p) => if i = j then some p else none
        | none => none := by
  unfold last_redirect
  rw [List.filterMap_cons]
  cases hk : redirect_kind t with
  | none =>
    simp only []
    cases ((List.filterMap redirect_kind pre).filter (fun x => decide (x.1 = j))).getLast? <;> rfl
  | some x =>
    obtain ⟨i, p⟩ := x
    simp only []
    by_cases hij : i = j
    · rw [List.filter_cons_of_pos (by simpa using hij)]
      cases hl : (List.filterMap redirect_kind pre).filter (fun x => decide (x.1 = j)) with
      | nil => simp [hij]
      | cons y ys =>
        rw [List.getLast?_cons_cons]
        cases hg : (y :: ys).getLast? with
        | none => simp at hg
        | some z => rfl
    · rw [List.filter_cons_of_neg (by simpa using hij)]
      cases ((List.filterMap redirect_kind pre).filter (fun x => decide (x.1 = j))).getLast? with
      | none => simp [hij]
      | some z => rfl

/-- What the token loop leaves in the struct, in terms of the tokens it reads. -/
theorem parse_tokens_loop_facts : ∀ (ts : List Str) (fresh : Nat → command_t) (c r : command_t),
    parse_tokens_loop fresh ts c = some r →
    r.name = c.name ∧ r.background = c.background ∧ r.auto_complete = c.auto_complete ∧
    r.args =
      some c.name :: (c.args ++ (positional_args ts).map (fun t => some (strip_quotes t))) ++
        [none] ∧
    r.arg_count = (c.args.length : Int) + ((positional_args ts).length : Int) + 2 ∧
    (∀ j, r.redirects j =
      match last_redirect j (ts.takeWhile (fun t => t ≠ ['|'])) with
      | some p => some p
      | none => c.redirects j) ∧
    (match ts.dropWhile (fun t => t ≠ ['|']) with
     | [] => r.next = c.next
     | _ :: post =>
       ∃ s, parse_tokens (fun k => fresh (k + 1)) post (fresh 0) = some s ∧ r.next = some s) := by
  intro ts
  induction ts with
  | nil =>
    intro fresh c r h
    simp only [parse_tokens_loop, Option.some.injEq] at h
    subst h
    have hf := finish_args_frame c
    have ha := finish_args_args c
    refine ⟨hf.1, hf.2.1, hf.2.2.1, by simpa [positional_args] using ha.1,
      by simpa [positional_args] using ha.2, ?_, ?_⟩
    · intro j
      simp only [List.takeWhile_nil, last_redirect_nil, hf.2.2.2.1]
    · simp only [List.dropWhile_nil]
      exact hf.2.2.2.2
  | cons t ts ih =>
    intro fresh c r h
    simp only [parse_tokens_loop] at h
    by_cases hfit : t.length + 1 > TEMP_BUF_SIZE
    · simp [hfit] at h
    · simp only [hfit, if_false] at h
      by_cases hpipe : t = ['|']
      · subst hpipe
        simp only [if_true] at h
        by_cases hnil : ts = []
        · simp [hnil] at h
        · simp only [hnil, if_false, Option.map_eq_some'] at h
          obtain ⟨n, hn, hr⟩ := h
          subst hr
          have hf := finish_args_frame { c with next := some n }
          have ha := finish_args_args { c with next := some n }
          refine ⟨hf.1, hf.2.1, hf.2.2.1, ?_, ?_, ?_, ?_⟩
          · rw [ha.1, positional_args_pipe]; simp
          · rw [ha.2, positional_args_pipe]; simp
          · intro j
            simp only [List.takeWhile_cons, ne_eq, not_true_eq_false, decide_False,
              Bool.false_eq_true, if_false, last_redirect_nil, hf.2.2.2.1]
          · simp only [List.dropWhile_cons, ne_eq, not_true_eq_false, decide_False,
              Bool.false_eq_true, if_false]
            exact ⟨n, hn, hf.2.2.2.2⟩
      · simp only [hpipe, if_false] at h
        obtain ⟨h1, h2, h3, h4, h5, h6, h7⟩ := ih fresh (parse_token c t) r h
        have hf := parse_token_frame c t
        have ha := parse_token_args c t
        have hc := positional_args_cons t ts hpipe
        refine ⟨h1.trans hf.1, h2.trans hf.2.1, h3.trans hf.2.2, ?_, ?_, ?_, ?_⟩
        · rw [h4, hf.1, ha.2, hc]
          by_cases hp : is_positional t = true <;> simp [hp]
        · rw [h5, hc]
          by_cases hp : is_positional t = true
          · have hlen : (parse_token c t).args.length = c.args.length + 1 := by
              rw [ha.2]; simp [hp]
            simp only [hp, if_true, List.length_cons, hlen]
            omega
          · have hlen : (parse_token c t).args.length = c.args.length := by
              rw [ha.2]; simp [hp]
            simp only [hp, if_false, Bool.false_eq_true, hlen]
        · intro j
          have htw : (t :: ts).takeWhile (fun t => decide (t ≠ ['|'])) =
              t :: ts.takeWhile (fun t => decide (t ≠ ['|'])) := by
            simp [List.takeWhile_cons, hpipe]
          rw [h6 j, htw, last_redirect_cons, parse_token_redirects]
          cases last_redirect j (ts.takeWhile (fun t => decide (t ≠ ['|']))) with
          | some p => rfl
          | none =>
            simp only []
            cases redirect_kind t with
            | none => rfl
            | some x =>
              obtain ⟨i, p⟩ := x
              simp only []
              by_cases hij : i = j <;> simp [hij]
        · have hdw : (t :: ts).dropWhile (fun t => decide (t ≠ ['|'])) =
              ts.dropWhile (fun t => decide (t ≠ ['|'])) := by
            simp [List.dropWhile_cons, hpipe]
          rw [hdw]
          rw [parse_token_next] at h7
          exact h7

theorem stages_loop_eq : ∀ (ts cur : List Str),
    stages_loop cur ts =
      match ts.dropWhile (fun t => t ≠ ['|']) with
      | [] => [cur ++ ts]
      | _ :: post => (cur ++ ts.takeWhile (fun t => t ≠ ['|'])) :: stages_of post := by
  intro ts
  induction ts with
  | nil => intro cur; simp [stages_loop]
  | cons t ts ih =>
    intro cur
    simp only [stages_loop]
    by_cases hpipe : t = ['|']
    · subst hpipe
      simp
    · have hdw : (t :: ts).dropWhile (fun t => decide (t ≠ ['|'])) =
          ts.dropWhile (fun t => decide (t ≠ ['|'])) := by
        simp [List.dropWhile_cons, hpipe]
      have htw : (t :: ts).takeWhile (fun t => decide (t ≠ ['|'])) =
          t :: ts.takeWhile (fun t => decide (t ≠ ['|'])) := by
        simp [List.takeWhile_cons, hpipe]
      simp only [hpipe, if_false]
      rw [ih, hdw, htw]
      cases ts.dropWhile (fun t => decide (t ≠ ['|'])) <;> simp

theorem stage_init_shift (fresh : Nat → command_t) (c : command_t) (k : Nat) :
    stage_init (fun i => fresh (i + 1)) (fresh 0) k = stage_init fresh c (k + 1) := by
  cases k <;> rfl

/-- Every stage of a parsed line, in terms of the tokens of that stage. -/
theorem parse_tokens_stage (n : Nat) : ∀ (toks : List Str), toks.length ≤ n →
    ∀ (fresh : Nat → command_t) (c r : command_t), parse_tokens fresh toks c = some r →
    ∀ (k : Nat) (st : List Str), (stages_of toks)[k]? = some st →
      ∃ s, nth_stage k r = some s ∧ s.name = st.headD [] ∧
        s.args = some (st.headD []) ::
          (st.tail.filter is_positional).map (fun t => some (strip_quotes t)) ++ [none] ∧
        s.arg_count = ((st.tail.filter is_positional).length : Int) + 2 ∧
        ∀ j, s.redirects j =
          match last_redirect j st.tail with
          | some p => some p
          | none => (stage_init fresh c k).redirects j := by
  induction n with
  | zero =>
    intro toks hn fresh c r h k st hst
    have : toks = [] := List.length_eq_zero.mp (by omega)
    subst this
    simp only [parse_tokens, Option.some.injEq] at h
    subst h
    simp only [stages_of] at hst
    cases k with
    | succ k => simp at hst
    | zero =>
      simp only [List.getElem?_cons_zero, Option.some.injEq] at hst
      subst hst
      have hf := finish_args_frame { set_flags none c with name := [], args := [] }
      have ha := finish_args_args { set_flags none c with name := [], args := [] }
      refine ⟨_, rfl, hf.1, by simpa using ha.1, by simpa using ha.2, ?_⟩
      intro j
      rw [hf.2.2.2.1]
      rfl
  | succ n ih =>
    intro toks hn fresh c r h k st hst
    cases toks with
    | nil =>
      simp only [parse_tokens, Option.some.injEq] at h
      subst h
      simp only [stages_of] at hst
      cases k with
      | succ k => simp at hst
      | zero =>
        simp only [List.getElem?_cons_zero, Option.some.injEq] at hst
        subst hst
        have hf := finish_args_frame { set_flags none c with name := [], args := [] }
        have ha := finish_args_args { set_flags none c with name := [], args := [] }
        refine ⟨_, rfl, hf.1, by simpa using ha.1, by simpa using ha.2, ?_⟩
        intro j
        rw [hf.2.2.2.1]
        rfl
    | cons name ts =>
      simp only [parse_tokens] at h
      obtain ⟨h1, _, _, h4, h5, h6, h7⟩ := parse_tokens_loop_facts ts fresh _ r h
      simp only [stages_of] at hst
      rw [stages_loop_eq] at hst
      have hsplit := List.takeWhile_append_dropWhile (fun t => decide (t ≠ ['|'])) ts
      have hfirst : ∀ st0 : List Str,
          st0 = name :: ts.takeWhile (fun t => decide (t ≠ ['|'])) →
          r.name = st0.headD [] ∧
          r.args = some (st0.headD []) ::
            (st0.tail.filter is_positional).map (fun t => some (strip_quotes t)) ++ [none] ∧
          r.arg_count = ((st0.tail.filter is_positional).length : Int) + 2 ∧
          ∀ j, r.redirects j =
            match last_redirect j st0.tail with
            | some p => some p
            | none => (stage_init fresh c 0).redirects j := by
        intro st0 hst0
        subst hst0
        refine ⟨h1, ?_, ?_, ?_⟩
        · rw [h4]
          simp [positional_args]
        · rw [h5]
          simp [positional_args]
        · intro j
          rw [h6 j]
          simp only [List.tail_cons, stage_init]
          cases last_redirect j (ts.takeWhile (fun t => decide (t ≠ ['|']))) with
          | some p => rfl
          | none =>
            simp only []
            unfold set_flags
            split_ifs <;> rfl
      cases hd : ts.dropWhile (fun t => decide (t ≠ ['|'])) with
      | nil =>
        rw [hd] at hst hsplit
        simp only [List.append_nil] at hsplit
        simp only [] at hst
        cases k with
        | succ k => simp at hst
        | zero =>
          simp only [List.getElem?_cons_zero, Option.some.injEq] at hst
          exact ⟨r, rfl, hfirst st (by rw [← hst, hsplit]; rfl)⟩
      | cons d post =>
        rw [hd] at hst h7
        simp only [] at hst h7
        cases k with
        | zero =>
          simp only [List.getElem?_cons_zero, Option.some.injEq] at hst
          exact ⟨r, rfl, hfirst st (by rw [← hst]; rfl)⟩
        | succ k =>
          simp only [List.getElem?_cons_succ] at hst
          obtain ⟨s1, hs1, hnext⟩ := h7
          have hlen : post.length ≤ n := by
            have h0 : (ts.dropWhile (fun t => decide (t ≠ ['|']))).length ≤ ts.length :=
              (List.dropWhile_suffix _).length_le
            rw [hd] at h0
            simp only [List.length_cons] at h0 hn
            omega
          obtain ⟨s, hs, hrest⟩ := ih post hlen _ _ s1 hs1 k st hst
          refine ⟨s, ?_, ?_⟩
          · simp only [nth_stage, hnext]
            exact hs
          · rw [stage_init_shift] at hrest
            exact hrest

/-- The token-level parser has a result when every token fits `temp_buf` and
the last token is not a pipe sign. -/
theorem parse_tokens_defined (n : Nat) :
    (∀ (toks : List Str), toks.length ≤ n → toks.getLast? ≠ some ['|'] →
      (∀ t ∈ toks, t.length < TEMP_BUF_SIZE) →
      ∀ (fresh : Nat → command_t) (c : command_t), ∃ r, parse_tokens fresh toks c = some r) ∧
    (∀ (ts : List Str), ts.length ≤ n → ts.getLast? ≠ some ['|'] →
      (∀ t ∈ ts, t.length < TEMP_BUF_SIZE) →
      ∀ (fresh : Nat → command_t) (c : command_t),
        ∃ r, parse_tokens_loop fresh ts c = some r) := by
  induction n with
  | zero =>
    constructor
    · intro toks hn _ _ fresh c
      have : toks = [] := List.length_eq_zero.mp (by omega)
      subst this
      exact ⟨_, rfl⟩
    · intro ts hn _ _ fresh c
      have : ts = [] := List.length_eq_zero.mp (by omega)
      subst this
      exact ⟨_, rfl⟩
  | succ n ih =>
    obtain ⟨ihc, ihl⟩ := ih
    constructor
    · intro toks hn hlast hfit fresh c
      cases toks with
      | nil => exact ⟨_, rfl⟩
      | cons name ts =>
        simp only [parse_tokens]
        apply ihl ts (by simpa using hn) _ (fun t ht => hfit t (by simp [ht]))
        intro h0
        apply hlast
        cases ts with
        | nil => simp at h0
        | cons a u => rw [List.getLast?_cons_cons]; exact h0
    · intro ts hn hlast hfit fresh c
      cases ts with
      | nil => exact ⟨_, rfl⟩
      | cons t ts =>
        have hlast1 : ts ≠ [] → ts.getLast? ≠ some ['|'] := by
          intro hne h0
          apply hlast
          cases ts with
          | nil => exact absurd rfl hne
          | cons a u => rw [List.getLast?_cons_cons]; exact h0
        have hlast2 : ts.getLast? ≠ some ['|'] := by
          by_cases hne : ts = []
          · rw [hne]; simp
          · exact hlast1 hne
        have hfit1 : ∀ x ∈ ts, x.length < TEMP_BUF_SIZE := fun x hx => hfit x (by simp [hx])
        have hft : ¬ (t.length + 1 > TEMP_BUF_SIZE) := by
          have := hfit t (by simp)
          omega
        simp only [parse_tokens_loop, hft, if_false]
        by_cases hpipe : t = ['|']
        · subst hpipe
          have hne : ts ≠ [] := by
            intro h0
            apply hlast
            rw [h0]
            rfl
          obtain ⟨r, hr⟩ := ihc ts (by simpa using hn) hlast2 hfit1 (fun k => fresh (k + 1))
            (fresh 0)
          simp only [if_true, hne, if_false, hr, Option.map_some']
          exact ⟨_, rfl⟩
        · simp only [hpipe, if_false]
          exact ihl ts (by simpa using hn) hlast2 hfit1 fresh _

/-- The result of `parse_command`, stage by stage: for a line whose tokens fit `temp_buf`
and whose last token is not a pipe sign the parser has a result, and stage
`k` of it holds what the tokens of stage `k` say. -/
theorem parse_command_stages (fresh : Nat → command_t) (buf : Str) (c : command_t)
    (hfit : ∀ t ∈ tokens buf, t.length < TEMP_BUF_SIZE)
    (hlast : (tokens buf).getLast? ≠ some ['|']) :
    ∃ r, parse_command fresh buf c = some r ∧
      ∀ (k : Nat) (st : List Str), (stages_of (tokens buf))[k]? = some st →
        ∃ s, nth_stage k r = some s ∧ s.name = st.headD [] ∧
          s.args = some (st.headD []) ::
            (st.tail.filter is_positional).map (fun t => some (strip_quotes t)) ++ [none] ∧
          s.arg_count = ((st.tail.filter is_positional).length : Int) + 2 ∧
          ∀ j, s.redirects j =
            match last_redirect j st.tail with
            | some p => some p
            | none => (stage_init fresh c k).redirects j := by
  obtain ⟨r, hr⟩ := (parse_tokens_defined _).1 (tokens buf) (Nat.le_refl _) hlast hfit fresh c
  rw [parse_command_tokens]
  exact ⟨r, hr, parse_tokens_stage _ _ (Nat.le_refl _) fresh c r hr⟩

/-- Name and flags of the first stage. -/
theorem parse_tokens_flags (fresh : Nat → command_t) (toks : List Str) (c r : command_t)
    (h : parse_tokens fresh toks c = some r) :
    r.name = toks.headD [] ∧
    r.background = (set_flags (toks.getLast?.bind List.getLast?) c).background ∧
    r.auto_complete = (set_flags (toks.getLast?.bind List.getLast?) c).auto_complete := by
  cases toks with
  | nil =>
    simp only [parse_tokens, Option.some.injEq] at h
    subst h
    have hf := finish_args_frame { set_flags none c with name := [], args := [] }
    exact ⟨hf.1, hf.2.1, hf.2.2.1⟩
  | cons name ts =>
    simp only [parse_tokens] at h
    obtain ⟨h1, h2, h3, _⟩ := parse_tokens_loop_facts ts fresh _ r h
    exact ⟨h1, h2, h3⟩

theorem set_flags_background (last : Option Char) (c : command_t) :
    (set_flags last c).background = (c.background || decide (last = some '&')) := by
  unfold set_flags
  by_cases h1 : last = some '?' <;> by_cases h2 : last = some '&' <;> simp [h1, h2]

theorem set_flags_auto_complete (last : Option Char) (c : command_t) :
    (set_flags last c).auto_complete = (c.auto_complete || decide (last = some '?')) := by
  unfold set_flags
  by_cases h1 : last = some '?' <;> by_cases h2 : last = some '&' <;> simp [h1, h2]

/-! ## Claims about `parse_command` -/

/-- C1 (as stated) fails: on the line `ls -la | grep foo > out.txt` the second
stage does not get the argument vector `["grep","foo",NULL]` with
output-truncate redirect `out.txt`, whatever the block that `malloc` returns
for the second stage contains: the token `>` alone fills the slot with the
empty path and `out.txt` becomes an argument. -/
theorem parse_spaced_truncate_counterexample :
    ¬ ∃ (fresh : Nat → command_t) (r s : command_t),
      parse_command fresh "ls -la | grep foo > out.txt".toList zeroed = some r ∧
      r.next = some s ∧
      s.args = [some "grep".toList, some "foo".toList, none] ∧
      s.redirects 1 = some "out.txt".toList := by
  rintro ⟨fresh, r, s, hr, hn, ha, _⟩
  obtain ⟨r0, s0, h1, h2, h3⟩ : ∃ r0 s0,
      parse_command fresh "ls -la | grep foo > out.txt".toList zeroed = some r0 ∧
      r0.next = some s0 ∧
      s0.args = [some "grep".toList, some "foo".toList, some "out.txt".toList, none] :=
    ⟨_, _, rfl, rfl, rfl⟩
  rw [h1, Option.some.injEq] at hr
  subst hr
  rw [h2, Option.some.injEq] at hn
  subst hn
  rw [h3] at ha
  exact absurd ha (by decide)

/-- C1 (amended): with the operator and the path in one token, the line
`ls -la | grep foo >out.txt` parses to a chain whose first stage is named
`ls`, has the arguments `["ls","-la",NULL]`, `arg_count` 3 and no redirect
set, and whose next stage is named `grep`, has the arguments
`["grep","foo",NULL]`, `arg_count` 3 and the output-truncate redirect
`out.txt`.  The struct of the second stage comes from `malloc` and is never
cleared: its other two redirect slots and its `next` link hold what the block
held before.  On the line as written, with a blank after `>`, the second
stage has the arguments `["grep","foo","out.txt",NULL]` and the empty string
as output-truncate redirect. -/
theorem parse_pipeline_truncate_example : ∀ fresh : Nat → command_t,
    (∃ r s, parse_command fresh "ls -la | grep foo >out.txt".toList zeroed = some r ∧
      r.name = "ls".toList ∧ r.args = [some "ls".toList, some "-la".toList, none] ∧
      r.arg_count = 3 ∧ (∀ j, r.redirects j = none) ∧ r.next = some s ∧
      s.name = "grep".toList ∧ s.args = [some "grep".toList, some "foo".toList, none] ∧
      s.arg_count = 3 ∧ s.redirects 1 = some "out.txt".toList ∧
      s.redirects 0 = (fresh 0).redirects 0 ∧ s.redirects 2 = (fresh 0).redirects 2 ∧
      s.next = (fresh 0).next) ∧
    (∃ r s, parse_command fresh "ls -la | grep foo > out.txt".toList zeroed = some r ∧
      r.name = "ls".toList ∧ r.args = [some "ls".toList, some "-la".toList, none] ∧
      r.next = some s ∧ s.name = "grep".toList ∧
      s.args = [some "grep".toList, some "foo".toList, some "out.txt".toList, none] ∧
      s.arg_count = 4 ∧ s.redirects 1 = some []) := by
  intro fresh
  exact ⟨⟨_, _, rfl, rfl, rfl, rfl, fun _ => rfl, rfl, rfl, rfl, rfl, rfl, rfl, rfl, rfl⟩,
    ⟨_, _, rfl, rfl, rfl, rfl, rfl, rfl, rfl, rfl⟩⟩

/-- C2 (as stated) fails: on the line `cat < in.txt >> out.txt &` the input
redirect is not `in.txt` and the output-append redirect is not `out.txt`,
whatever the heap contains. -/
theorem parse_spaced_background_counterexample :
    ¬ ∃ (fresh : Nat → command_t) (r : command_t),
      parse_command fresh "cat < in.txt >> out.txt &".toList zeroed = some r ∧
      r.redirects 0 = some "in.txt".toList ∧ r.redirects 2 = some "out.txt".toList := by
  rintro ⟨fresh, r, hr, h0, _⟩
  obtain ⟨r0, h1, h2⟩ : ∃ r0,
      parse_command fresh "cat < in.txt >> out.txt &".toList zeroed = some r0 ∧
      r0.redirects 0 = some [] := ⟨_, rfl, rfl⟩
  rw [h1, Option.some.injEq] at hr
  subst hr
  rw [h2] at h0
  exact absurd h0 (by decide)

/-- C2 (amended): the line `cat <in.txt >>out.txt &` parses to a single stage
named `cat` with background set, input redirect `in.txt`, output-append
redirect `out.txt`, no output-truncate redirect and the arguments
`["cat",NULL]`.  On the line as written, with blanks after `<` and `>>`, the
stage is single and in the background too, but both redirects are the empty
string and the arguments are `["cat","in.txt","out.txt",NULL]`. -/
theorem parse_background_redirects_example : ∀ fresh : Nat → command_t,
    ((parse_command fresh "cat <in.txt >>out.txt &".toList zeroed).map chain_view =
        some [⟨"cat".toList, [some "cat".toList, none],
            some "in.txt".toList, none, some "out.txt".toList⟩] ∧
     (parse_command fresh "cat <in.txt >>out.txt &".toList zeroed).map
        (fun r => r.background) = some true) ∧
    ((parse_command fresh "cat < in.txt >> out.txt &".toList zeroed).map chain_view =
        some [⟨"cat".toList,
            [some "cat".toList, some "in.txt".toList, some "out.txt".toList, none],
            some [], none, some []⟩] ∧
     (parse_command fresh "cat < in.txt >> out.txt &".toList zeroed).map
        (fun r => r.background) = some true) := by
  intro fresh
  exact ⟨⟨rfl, rfl⟩, rfl, rfl⟩

theorem tokens_pair (w t : Str) (hw : w ≠ []) (hwn : ∀ x ∈ w, is_splitter x = false)
    (ht : t ≠ []) (htn : ∀ x ∈ t, is_splitter x = false) :
    tokens (w ++ ' ' :: t) = [w, t] := by
  have h := strtok_append [] w (' ' :: t) (by simp) hw hwn
    (by intro x hx; simp at hx; rw [← hx]; decide)
  simp only [List.nil_append, List.tail_cons] at h
  rw [tokens_eq, h]
  simp only []
  rw [tokens_single t ht htn]

/-- A token after the name that does not fit `temp_buf` leaves the parser
without a defined result. -/
theorem parse_command_long_token (fresh : Nat → command_t) (w t : Str) (c : command_t)
    (hw : w ≠ []) (hwn : ∀ x ∈ w, is_splitter x = false)
    (ht : t ≠ []) (htn : ∀ x ∈ t, is_splitter x = false)
    (hlong : TEMP_BUF_SIZE ≤ t.length) :
    parse_command fresh (w ++ ' ' :: t) c = none := by
  rw [parse_command_tokens, tokens_pair w t hw hwn ht htn]
  have : t.length + 1 > TEMP_BUF_SIZE := by omega
  simp [parse_tokens, parse_tokens_loop, this]

/-- C3: for every line whose tokens are shorter than the 1024 bytes of
`temp_buf` and whose last token is not a pipe sign, `parse_command` has a
result, and in every stage of it each redirect slot holds the path of the
last token of that stage (after its name) that names the slot, where `<p`
names slot 0 with path `p`, `>p` with `p` not starting with `>` names slot 1
with path `p` and `>>p` names slot 2 with path `p`; a slot that no token
names is as it was before the parse; the argument array holds the name, the
positional tokens and `NULL`, and no redirect token is positional.  In the
token loop each such token changes the struct in its slot only.  A redirect
token of 1024 or more characters does not fit `temp_buf`: the parse has no
defined result then. -/
theorem redirect_token_fills_slot (fresh : Nat → command_t) (buf : Str) (c : command_t)
    (hfit : ∀ t ∈ tokens buf, t.length < TEMP_BUF_SIZE)
    (hlast : (tokens buf).getLast? ≠ some ['|']) :
    (∃ r, parse_command fresh buf c = some r ∧
      ∀ (k : Nat) (st : List Str), (stages_of (tokens buf))[k]? = some st →
        ∃ s, nth_stage k r = some s ∧
          (∀ j, s.redirects j =
            match last_redirect j st.tail with
            | some p => some p
            | none => (stage_init fresh c k).redirects j) ∧
          s.args = some (st.headD []) ::
            (st.tail.filter is_positional).map (fun t => some (strip_quotes t)) ++ [none] ∧
          ∀ t ∈ st.tail, (redirect_kind t).isSome = true → is_positional t = false) ∧
    (∀ (d : command_t) (p : Str),
      parse_token d ('<' :: p) =
        { d with redirects := Function.update d.redirects 0 (some p) } ∧
      (p.head? ≠ some '>' →
        parse_token d ('>' :: p) =
          { d with redirects := Function.update d.redirects 1 (some p) }) ∧
      parse_token d ('>' :: '>' :: p) =
        { d with redirects := Function.update d.redirects 2 (some p) }) ∧
    (∀ p : Str, (∀ x ∈ p, is_splitter x = false) → TEMP_BUF_SIZE ≤ p.length + 1 →
      parse_command fresh ("cat".toList ++ ' ' :: '<' :: p) c = none) := by
  obtain ⟨r, hr, hst⟩ := parse_command_stages fresh buf c hfit hlast
  refine ⟨⟨r, hr, ?_⟩, ?_, ?_⟩
  · intro k st hk
    obtain ⟨s, hs, _, h2, _, h4⟩ := hst k st hk
    exact ⟨s, hs, h4, h2, fun t _ ht => redirect_kind_positional t ht⟩
  · intro d p
    exact ⟨parse_token_input d p, fun hp => parse_token_truncate d p hp, parse_token_append d p⟩
  · intro p hp hlong
    apply parse_command_long_token fresh "cat".toList ('<' :: p) c (by decide) (by decide)
      (by simp)
    · intro x hx
      rcases List.mem_cons.mp hx with h | h
      · rw [h]; decide
      · exact hp x h
    · simpa using hlong

/-- Witness for C3: the two-stage line
`sort <in.txt -r >out.txt >>log.txt | wc >n.txt`. -/
theorem redirect_token_fills_slot_witness :
    (∀ t ∈ tokens "sort <in.txt -r >out.txt >>log.txt | wc >n.txt".toList,
      t.length < TEMP_BUF_SIZE) ∧
    (tokens "sort <in.txt -r >out.txt >>log.txt | wc >n.txt".toList).getLast? ≠ some ['|'] ∧
    ((∃ r, parse_command (fun _ => zeroed)
          "sort <in.txt -r >out.txt >>log.txt | wc >n.txt".toList zeroed = some r ∧
      ∀ (k : Nat) (st : List Str),
        (stages_of (tokens "sort <in.txt -r >out.txt >>log.txt | wc >n.txt".toList))[k]? =
          some st →
        ∃ s, nth_stage k r = some s ∧
          (∀ j, s.redirects j =
            match last_redirect j st.tail with
            | some p => some p
            | none => (stage_init (fun _ => zeroed) zeroed k).redirects j) ∧
          s.args = some (st.headD []) ::
            (st.tail.filter is_positional).map (fun t => some (strip_quotes t)) ++ [none] ∧
          ∀ t ∈ st.tail, (redirect_kind t).isSome = true → is_positional t = false) ∧
    (∀ (d : command_t) (p : Str),
      parse_token d ('<' :: p) =
        { d with redirects := Function.update d.redirects 0 (some p) } ∧
      (p.head? ≠ some '>' →
        parse_token d ('>' :: p) =
          { d with redirects := Function.update d.redirects 1 (some p) }) ∧
      parse_token d ('>' :: '>' :: p) =
        { d with redirects := Function.update d.redirects 2 (some p) }) ∧
    (∀ p : Str, (∀ x ∈ p, is_splitter x = false) → TEMP_BUF_SIZE ≤ p.length + 1 →
      parse_command (fun _ => zeroed) ("cat".toList ++ ' ' :: '<' :: p) zeroed = none)) :=
  ⟨by decide, by decide,
   redirect_token_fills_slot (fun _ => zeroed)
     "sort <in.txt -r >out.txt >>log.txt | wc >n.txt".toList zeroed (by decide) (by decide)⟩

/-- C4 (as stated) fails: on the line `echo "hi"` the only positional token
after the name is `"hi"`, quotes included, but the argument vector is
`["echo","hi",NULL]`; for no content of the heap is it the name, the token
and `NULL`. -/
theorem quoted_argument_stripped_counterexample :
    positional_args
        (tokens ("echo ".toList ++ Char.ofNat 34 :: "hi".toList ++ [Char.ofNat 34])).tail
      = [Char.ofNat 34 :: "hi".toList ++ [Char.ofNat 34]] ∧
    (parse_command (fun _ => zeroed)
        ("echo ".toList ++ Char.ofNat 34 :: "hi".toList ++ [Char.ofNat 34]) zeroed).map
      (fun r => r.args) = some [some "echo".toList, some "hi".toList, none] ∧
    ¬ ∃ (fresh : Nat → command_t) (r : command_t),
      parse_command fresh ("echo ".toList ++ Char.ofNat 34 :: "hi".toList ++ [Char.ofNat 34])
        zeroed = some r ∧
      r.args = [some "echo".toList, some (Char.ofNat 34 :: "hi".toList ++ [Char.ofNat 34]),
        none] := by
  refine ⟨by decide, by decide, ?_⟩
  rintro ⟨fresh, r, hr, ha⟩
  obtain ⟨r0, h1, h2⟩ : ∃ r0,
      parse_command fresh ("echo ".toList ++ Char.ofNat 34 :: "hi".toList ++ [Char.ofNat 34])
        zeroed = some r0 ∧
      r0.args = [some "echo".toList, some "hi".toList, none] := ⟨_, rfl, rfl⟩
  rw [h1, Option.some.injEq] at hr
  subst hr
  rw [h2] at ha
  exact absurd ha (by decide)

/-- C4 (amended): the tokens of a line are its maximal runs of characters
other than blank and tab.  For every line whose tokens are shorter than the
1024 bytes of `temp_buf` and whose last token is not a pipe sign, and every
struct handed to `parse_command`, the parser has a result, and every stage of
it has as name the first token of the stage and as argument array the name,
then the positional arguments of the stage (its tokens after the name that
are neither a bare `&` nor a redirect token, in order; the stage ends before
the next pipe sign), each stored after the quote test of the loop (a token
longer than two characters that starts and ends with the same quote loses
the two quotes), then `NULL`; `arg_count` is the number of positional
arguments plus 2. -/
theorem argument_vector_layout (fresh : Nat → command_t) (buf : Str) (c : command_t)
    (hfit : ∀ t ∈ tokens buf, t.length < TEMP_BUF_SIZE)
    (hlast : (tokens buf).getLast? ≠ some ['|']) :
    tokens buf = (buf.splitOnP is_splitter).filter (fun t => !t.isEmpty) ∧
    ∃ r, parse_command fresh buf c = some r ∧
      ∀ (k : Nat) (st : List Str), (stages_of (tokens buf))[k]? = some st →
        ∃ s, nth_stage k r = some s ∧ s.name = st.headD [] ∧
          s.args = some s.name ::
            (st.tail.filter is_positional).map (fun t => some (strip_quotes t)) ++ [none] ∧
          s.arg_count = ((st.tail.filter is_positional).length : Int) + 2 := by
  obtain ⟨r, hr, hst⟩ := parse_command_stages fresh buf c hfit hlast
  refine ⟨tokens_eq_splitOnP buf, r, hr, ?_⟩
  intro k st hk
  obtain ⟨s, hs, h1, h2, h3, _⟩ := hst k st hk
  exact ⟨s, hs, h1, by rw [h1]; exact h2, h3⟩

/-- Witness for C4: the two-stage line `echo "hi" there >f | wc -l`. -/
theorem argument_vector_layout_witness :
    (∀ t ∈ tokens ("echo ".toList ++ Char.ofNat 34 :: "hi".toList ++
        Char.ofNat 34 :: " there >f | wc -l".toList), t.length < TEMP_BUF_SIZE) ∧
    (tokens ("echo ".toList ++ Char.ofNat 34 :: "hi".toList ++
        Char.ofNat 34 :: " there >f | wc -l".toList)).getLast? ≠ some ['|'] ∧
    (tokens ("echo ".toList ++ Char.ofNat 34 :: "hi".toList ++
        Char.ofNat 34 :: " there >f | wc -l".toList) =
      (("echo ".toList ++ Char.ofNat 34 :: "hi".toList ++
        Char.ofNat 34 :: " there >f | wc -l".toList).splitOnP is_splitter).filter
          (fun t => !t.isEmpty) ∧
    ∃ r, parse_command (fun _ => zeroed) ("echo ".toList ++ Char.ofNat 34 :: "hi".toList ++
        Char.ofNat 34 :: " there >f | wc -l".toList) zeroed = some r ∧
      ∀ (k : Nat) (st : List Str),
        (stages_of (tokens ("echo ".toList ++ Char.ofNat 34 :: "hi".toList ++
          Char.ofNat 34 :: " there >f | wc -l".toList)))[k]? = some st →
        ∃ s, nth_stage k r = some s ∧ s.name = st.headD [] ∧
          s.args = some s.name ::
            (st.tail.filter is_positional).map (fun t => some (strip_quotes t)) ++ [none] ∧
          s.arg_count = ((st.tail.filter is_positional).length : Int) + 2) :=
  ⟨by decide, by decide,
   argument_vector_layout (fun _ => zeroed) ("echo ".toList ++ Char.ofNat 34 :: "hi".toList ++
        Char.ofNat 34 :: " there >f | wc -l".toList) zeroed (by decide) (by decide)⟩

/-- C5 (as stated) fails: the trailing `&` of `ls&` and the trailing `?` of
`ls?` are not stripped before tokenizing, so neither line parses to the name
`ls`, whatever the heap contains: the names are `ls&` and `ls?`. -/
theorem trailing_marker_not_stripped_counterexample :
    (parse_command (fun _ => zeroed) "ls&".toList zeroed).map (fun r => r.name)
      = some "ls&".toList ∧
    (parse_command (fun _ => zeroed) "ls?".toList zeroed).map (fun r => r.name)
      = some "ls?".toList ∧
    ¬ ∃ (fresh : Nat → command_t) (r : command_t),
      (parse_command fresh "ls&".toList zeroed = some r ∨
        parse_command fresh "ls?".toList zeroed = some r) ∧
      r.name = "ls".toList := by
  refine ⟨by decide, by decide, ?_⟩
  rintro ⟨fresh, r, hr | hr, hn⟩
  · obtain ⟨r0, h1, h2⟩ : ∃ r0, parse_command fresh "ls&".toList zeroed = some r0 ∧
        r0.name = "ls&".toList := ⟨_, rfl, rfl⟩
    rw [h1, Option.some.injEq] at hr
    subst hr
    rw [h2] at hn
    exact absurd hn (by decide)
  · obtain ⟨r0, h1, h2⟩ : ∃ r0, parse_command fresh "ls?".toList zeroed = some r0 ∧
        r0.name = "ls?".toList := ⟨_, rfl, rfl⟩
    rw [h1, Option.some.injEq] at hr
    subst hr
    rw [h2] at hn
    exact absurd hn (by decide)

theorem parse_command_flag_of_last (fresh : Nat → command_t) (pre ws : Str) (ch : Char)
    (c r : command_t) (hch : is_splitter ch = false) (hws : ∀ x ∈ ws, is_splitter x = true)
    (h : parse_command fresh (pre ++ ch :: ws) c = some r) :
    r.background = (c.background || decide (some ch = some '&')) ∧
    r.auto_complete = (c.auto_complete || decide (some ch = some '?')) := by
  rw [parse_command_tokens] at h
  obtain ⟨_, h2, h3⟩ := parse_tokens_flags fresh _ c r h
  rw [← trim_getLast_tokens, trimmed_getLast pre ws ch hch hws] at h2 h3
  rw [h2, h3, set_flags_background, set_flags_auto_complete]
  exact ⟨rfl, rfl⟩

theorem tokens_last_of_marker (pre ws : Str) (ch : Char) (hch : is_splitter ch = false)
    (hws : ∀ x ∈ ws, is_splitter x = true) (hne : ch ≠ '|') :
    (tokens (pre ++ ch :: ws)).getLast? ≠ some ['|'] := by
  intro h0
  have h1 := trim_getLast_tokens (pre ++ ch :: ws)
  rw [trimmed_getLast pre ws ch hch hws, h0] at h1
  simp only [Option.some_bind, List.getLast?_singleton, Option.some.injEq] at h1
  exact hne h1

/-- C5 (amended): for every line whose last character before trailing blanks
is `?` (respectively `&`), `parse_command` sets `auto_complete` (respectively
`background`) to true: whenever the parse has a result the flag is set in it,
and it has a result when every token of the line is shorter than the 1024
bytes of `temp_buf`.  The character is not removed from the line: a line
that is one word `w` followed by `?` or `&` parses to the name `w?`,
respectively `w&` (so `ls&` has name `ls&` and `ls?` has name `ls?`); a `&`
standing alone as a token after the name is skipped by the token loop and
does not become an argument. -/
theorem trailing_marker_sets_flag (fresh : Nat → command_t) (pre ws w : Str) (c : command_t)
    (hws : ∀ x ∈ ws, is_splitter x = true)
    (hw : ∀ x ∈ w, is_splitter x = false) (hne : w ≠ [])
    (hfitq : ∀ t ∈ tokens (pre ++ '?' :: ws), t.length < TEMP_BUF_SIZE)
    (hfita : ∀ t ∈ tokens (pre ++ '&' :: ws), t.length < TEMP_BUF_SIZE) :
    (∃ r, parse_command fresh (pre ++ '?' :: ws) c = some r ∧ r.auto_complete = true) ∧
    (∃ r, parse_command fresh (pre ++ '&' :: ws) c = some r ∧ r.background = true) ∧
    (∀ (line : Str) (r : command_t), parse_command fresh (line ++ '?' :: ws) c = some r →
      r.auto_complete = true) ∧
    (∀ (line : Str) (r : command_t), parse_command fresh (line ++ '&' :: ws) c = some r →
      r.background = true) ∧
    (∃ r, parse_command fresh (w ++ ['?']) c = some r ∧ r.name = w ++ ['?']) ∧
    (∃ r, parse_command fresh (w ++ ['&']) c = some r ∧ r.name = w ++ ['&']) ∧
    (∃ r, parse_command fresh (w ++ [' ', '&']) c = some r ∧ r.name = w ∧
      r.args = [some w, none]) := by
  have hq : is_splitter '?' = false := by decide
  have ha : is_splitter '&' = false := by decide
  have hwq : ∀ x ∈ w ++ ['?'], is_splitter x = false := by
    intro x hx
    rcases List.mem_append.mp hx with h | h
    · exact hw x h
    · simp at h; rw [h]; exact hq
  have hwa : ∀ x ∈ w ++ ['&'], is_splitter x = false := by
    intro x hx
    rcases List.mem_append.mp hx with h | h
    · exact hw x h
    · simp at h; rw [h]; exact ha
  have htok : tokens (w ++ [' ', '&']) = [w, ['&']] :=
    tokens_pair w ['&'] hne hw (by simp) (by intro x hx; simp at hx; rw [hx]; exact ha)
  have hallq : ∀ (line : Str) (r : command_t),
      parse_command fresh (line ++ '?' :: ws) c = some r → r.auto_complete = true := by
    intro line r h
    rw [(parse_command_flag_of_last fresh line ws '?' c r hq hws h).2]
    simp
  have halla : ∀ (line : Str) (r : command_t),
      parse_command fresh (line ++ '&' :: ws) c = some r → r.background = true := by
    intro line r h
    rw [(parse_command_flag_of_last fresh line ws '&' c r ha hws h).1]
    simp
  have hsingle : ∀ n : Str, ∃ r, parse_tokens fresh [n] c = some r ∧ r.name = n := by
    intro n
    refine ⟨_, rfl, ?_⟩
    exact (finish_args_frame _).1
  refine ⟨?_, ?_, hallq, halla, ?_, ?_, ?_⟩
  · obtain ⟨r, hr⟩ := (parse_tokens_defined _).1 _ (Nat.le_refl _)
      (tokens_last_of_marker pre ws '?' hq hws (by decide)) hfitq fresh c
    rw [← parse_command_tokens] at hr
    exact ⟨r, hr, hallq pre r hr⟩
  · obtain ⟨r, hr⟩ := (parse_tokens_defined _).1 _ (Nat.le_refl _)
      (tokens_last_of_marker pre ws '&' ha hws (by decide)) hfita fresh c
    rw [← parse_command_tokens] at hr
    exact ⟨r, hr, halla pre r hr⟩
  · rw [parse_command_tokens, tokens_single _ (by simp) hwq]
    exact hsingle _
  · rw [parse_command_tokens, tokens_single _ (by simp) hwa]
    exact hsingle _
  · rw [parse_command_tokens, htok]
    have hfit1 : ¬ ((['&'] : Str).length + 1 > TEMP_BUF_SIZE) := by decide
    have hnp : ¬ ((['&'] : Str) = ['|']) := by decide
    have hpt : ∀ d : command_t, parse_token d ['&'] = d := fun d => rfl
    simp only [parse_tokens, parse_tokens_loop, hfit1, hnp, if_false, hpt]
    refine ⟨_, rfl, (finish_args_frame _).1, ?_⟩
    rw [(finish_args_args _).1]
    rfl

/-- Witness for C5: the lines `ls -l?` and `ls -l&` followed by a blank, and
the word `ls`. -/
theorem trailing_marker_sets_flag_witness :
    (∀ x ∈ " ".toList, is_splitter x = true) ∧
    (∀ x ∈ "ls".toList, is_splitter x = false) ∧ "ls".toList ≠ [] ∧
    (∀ t ∈ tokens ("ls -l".toList ++ '?' :: " ".toList), t.length < TEMP_BUF_SIZE) ∧
    (∀ t ∈ tokens ("ls -l".toList ++ '&' :: " ".toList), t.length < TEMP_BUF_SIZE) ∧
    ((∃ r, parse_command (fun _ => zeroed) ("ls -l".toList ++ '?' :: " ".toList) zeroed = some r ∧
      r.auto_complete = true) ∧
    (∃ r, parse_command (fun _ => zeroed) ("ls -l".toList ++ '&' :: " ".toList) zeroed = some r ∧
      r.background = true) ∧
    (∀ (line : Str) (r : command_t),
      parse_command (fun _ => zeroed) (line ++ '?' :: " ".toList) zeroed = some r →
      r.auto_complete = true) ∧
    (∀ (line : Str) (r : command_t),
      parse_command (fun _ => zeroed) (line ++ '&' :: " ".toList) zeroed = some r →
      r.background = true) ∧
    (∃ r, parse_command (fun _ => zeroed) ("ls".toList ++ ['?']) zeroed = some r ∧
      r.name = "ls".toList ++ ['?']) ∧
    (∃ r, parse_command (fun _ => zeroed) ("ls".toList ++ ['&']) zeroed = some r ∧
      r.name = "ls".toList ++ ['&']) ∧
    (∃ r, parse_command (fun _ => zeroed) ("ls".toList ++ [' ', '&']) zeroed = some r ∧
      r.name = "ls".toList ∧ r.args = [some "ls".toList, none])) :=
  ⟨by decide, by decide, by decide, by decide, by decide,
   trailing_marker_sets_flag (fun _ => zeroed) "ls -l".toList " ".toList "ls".toList zeroed
     (by decide) (by decide) (by decide) (by decide) (by decide)⟩

/-- C6 (as stated) fails for the empty string between the quotes: the token
made of two double quotes is stored with its quotes, not as the empty
argument, whatever the heap contains. -/
theorem empty_quotes_kept_counterexample :
    (parse_command (fun _ => zeroed) ("echo ".toList ++ [Char.ofNat 34, Char.ofNat 34])
        zeroed).map (fun r => r.args)
      = some [some "echo".toList, some [Char.ofNat 34, Char.ofNat 34], none] ∧
    ¬ ∃ (fresh : Nat → command_t) (r : command_t),
      parse_command fresh ("echo ".toList ++ [Char.ofNat 34, Char.ofNat 34]) zeroed = some r ∧
      r.args = [some "echo".toList, some [], none] := by
  refine ⟨by decide, ?_⟩
  rintro ⟨fresh, r, hr, ha⟩
  obtain ⟨r0, h1, h2⟩ : ∃ r0,
      parse_command fresh ("echo ".toList ++ [Char.ofNat 34, Char.ofNat 34]) zeroed = some r0 ∧
      r0.args = [some "echo".toList, some [Char.ofNat 34, Char.ofNat 34], none] :=
    ⟨_, rfl, rfl⟩
  rw [h1, Option.some.injEq] at hr
  subst hr
  rw [h2] at ha
  exact absurd ha (by decide)

/-- C6 (amended): for every line whose tokens are shorter than the 1024 bytes
of `temp_buf` and whose last token is not a pipe sign, `parse_command` has a
result, and in every stage of it the `i`-th positional token `t` of the
stage is stored in slot `i + 1` of the argument array as follows: a token
`q s q`, with `q` the double or the single quote and `s` non-empty, is stored
as `s`; the token `q q` with nothing between the quotes is stored verbatim,
quotes included; a token that is not wrapped in a matching pair of quotes is
stored verbatim. -/
theorem quoted_token_stored (fresh : Nat → command_t) (buf : Str) (c : command_t)
    (hfit : ∀ t ∈ tokens buf, t.length < TEMP_BUF_SIZE)
    (hlast : (tokens buf).getLast? ≠ some ['|']) :
    ∃ r, parse_command fresh buf c = some r ∧
      ∀ (k : Nat) (st : List Str), (stages_of (tokens buf))[k]? = some st →
        ∃ s, nth_stage k r = some s ∧
          ∀ (i : Nat) (t : Str), (st.tail.filter is_positional)[i]? = some t →
            (∀ (q : Char) (body : Str), (q = Char.ofNat 34 ∨ q = Char.ofNat 39) → body ≠ [] →
              t = q :: body ++ [q] → s.args[i + 1]? = some (some body)) ∧
            (∀ q : Char, (q = Char.ofNat 34 ∨ q = Char.ofNat 39) → t = [q, q] →
              s.args[i + 1]? = some (some [q, q])) ∧
            ((¬ ∃ q body, (q = Char.ofNat 34 ∨ q = Char.ofNat 39) ∧ t = q :: body ++ [q]) →
              s.args[i + 1]? = some (some t)) := by
  obtain ⟨r, hr, hst⟩ := parse_command_stages fresh buf c hfit hlast
  refine ⟨r, hr, ?_⟩
  intro k st hk
  obtain ⟨s, hs, _, h2, _, _⟩ := hst k st hk
  refine ⟨s, hs, ?_⟩
  intro i t hi
  have hstored : s.args[i + 1]? = some (some (strip_quotes t)) := by
    have hlt : i < (st.tail.filter is_positional).length := by
      rcases List.getElem?_eq_some_iff.mp hi with ⟨h, _⟩
      exact h
    rw [h2, List.cons_append, List.getElem?_cons_succ,
      List.getElem?_append_left (by simpa using hlt), List.getElem?_map, hi]
    rfl
  refine ⟨?_, ?_, ?_⟩
  · intro q body hq hne ht
    rw [hstored, ht, strip_quotes_wrapped q body hq hne]
  · intro q hq ht
    rw [hstored, ht]
    have : strip_quotes [q, q] = [q, q] := by simp [strip_quotes]
    rw [this]
  · intro hnw
    rw [hstored, strip_quotes_unwrapped t hnw]

/-- Witness for C6: the line `echo "hi" 'a' x | grep "" -v`, with a quoted
word, a quoted letter, a plain word and an empty pair of quotes. -/
theorem quoted_token_stored_witness :
    (∀ t ∈ tokens ("echo ".toList ++ Char.ofNat 34 :: "hi".toList ++ Char.ofNat 34 :: ' ' ::
        Char.ofNat 39 :: 'a' :: Char.ofNat 39 :: " x | grep ".toList ++
        Char.ofNat 34 :: Char.ofNat 34 :: " -v".toList), t.length < TEMP_BUF_SIZE) ∧
    (tokens ("echo ".toList ++ Char.ofNat 34 :: "hi".toList ++ Char.ofNat 34 :: ' ' ::
        Char.ofNat 39 :: 'a' :: Char.ofNat 39 :: " x | grep ".toList ++
        Char.ofNat 34 :: Char.ofNat 34 :: " -v".toList)).getLast? ≠ some ['|'] ∧
    (∃ r, parse_command (fun _ => zeroed)
        ("echo ".toList ++ Char.ofNat 34 :: "hi".toList ++ Char.ofNat 34 :: ' ' ::
          Char.ofNat 39 :: 'a' :: Char.ofNat 39 :: " x | grep ".toList ++
          Char.ofNat 34 :: Char.ofNat 34 :: " -v".toList) zeroed = some r ∧
      ∀ (k : Nat) (st : List Str),
        (stages_of (tokens ("echo ".toList ++ Char.ofNat 34 :: "hi".toList ++
          Char.ofNat 34 :: ' ' :: Char.ofNat 39 :: 'a' :: Char.ofNat 39 ::
          " x | grep ".toList ++ Char.ofNat 34 :: Char.ofNat 34 :: " -v".toList)))[k]? =
            some st →
        ∃ s, nth_stage k r = some s ∧
          ∀ (i : Nat) (t : Str), (st.tail.filter is_positional)[i]? = some t →
            (∀ (q : Char) (body : Str), (q = Char.ofNat 34 ∨ q = Char.ofNat 39) → body ≠ [] →
              t = q :: body ++ [q] → s.args[i + 1]? = some (some body)) ∧
            (∀ q : Char, (q = Char.ofNat 34 ∨ q = Char.ofNat 39) → t = [q, q] →
              s.args[i + 1]? = some (some [q, q])) ∧
            ((¬ ∃ q body, (q = Char.ofNat 34 ∨ q = Char.ofNat 39) ∧ t = q :: body ++ [q]) →
              s.args[i + 1]? = some (some t))) :=
  ⟨by decide, by decide,
   quoted_token_stored (fun _ => zeroed)
     ("echo ".toList ++ Char.ofNat 34 :: "hi".toList ++ Char.ofNat 34 :: ' ' ::
        Char.ofNat 39 :: 'a' :: Char.ofNat 39 :: " x | grep ".toList ++
        Char.ofNat 34 :: Char.ofNat 34 :: " -v".toList) zeroed (by decide) (by decide)⟩

/-! ## Claims about `process_command` -/

theorem parse_command_blank (fresh : Nat → command_t) (buf : Str) (c : command_t)
    (hbuf : ∀ x ∈ buf, is_splitter x = true) :
    ∃ r, parse_command fresh buf c = some r ∧ r.name = [] := by
  rw [parse_command_tokens, tokens_of_splitters buf hbuf]
  exact ⟨_, rfl, (finish_args_frame _).1⟩

theorem process_command_empty_name (c : command_t) (h : c.name = []) :
    process_command c = (Outcome.returns 0, []) := by
  obtain ⟨name, bg, ac, cnt, args, red, next⟩ := c
  change name = [] at h
  subst h
  unfold process_command
  simp [SUCCESS]

theorem cut_builtin_outcome (args : List (Option Str)) :
    (cut_builtin args).1 = Outcome.undefined ∨ (cut_builtin args).1 = Outcome.returns 0 := by
  unfold cut_builtin
  split
  · exact Or.inl rfl
  · exact Or.inr rfl
  · exact Or.inr rfl
  · exact Or.inr rfl
  · simp only []
    split
    · exact Or.inl rfl
    · exact Or.inr rfl

theorem cd_builtin_outcome (args : List (Option Str)) :
    (cd_builtin args).1 = Outcome.undefined ∨ (cd_builtin args).1 = Outcome.returns 0 := by
  unfold cd_builtin
  split
  · exact Or.inr rfl
  · exact Or.inl rfl

theorem chatroom_builtin_outcome (cnt : Int) (args : List (Option Str)) :
    (chatroom_builtin cnt args).1 = Outcome.undefined ∨
    (chatroom_builtin cnt args).1 = Outcome.after_session 0 ∨
    (chatroom_builtin cnt args).1 = Outcome.returns 0 := by
  unfold chatroom_builtin
  split
  · exact Or.inr (Or.inr rfl)
  · split
    · exact Or.inr (Or.inl rfl)
    · exact Or.inl rfl

theorem battleship_builtin_outcome (cnt : Int) (args : List (Option Str)) :
    (battleship_builtin cnt args).1 = Outcome.undefined ∨
    (battleship_builtin cnt args).1 = Outcome.after_session 0 ∨
    (battleship_builtin cnt args).1 = Outcome.returns 0 := by
  unfold battleship_builtin
  split
  · exact Or.inr (Or.inr rfl)
  · split
    · exact Or.inr (Or.inl rfl)
    · exact Or.inl rfl

/-- The outcome of `process_command` in the calling process. -/
theorem process_command_outcome (c : command_t) :
    (process_command c).1 = Outcome.undefined ∨
    (process_command c).1 = Outcome.after_session 0 ∨
    (process_command c).1 = Outcome.returns (if c.name = "exit".toList then 1 else 0) := by
  obtain ⟨name, bg, ac, cnt, args, red, next⟩ := c
  unfold process_command
  simp only [SUCCESS, EXIT]
  by_cases h1 : name = []
  · subst h1
    right; right
    simp
  · by_cases h2 : name = "exit".toList
    · right; right
      simp [h2]
    · simp only [h1, h2, if_false]
      by_cases h3 : name = "cd".toList ∧ cnt > 0
      · simp only [h3, and_self, if_true]
        rcases cd_builtin_outcome args with h | h
        · exact Or.inl h
        · exact Or.inr (Or.inr h)
      · simp only [h3, if_false]
        by_cases h4 : name = "cut".toList
        · simp only [h4, if_true]
          rcases cut_builtin_outcome args with h | h
          · exact Or.inl h
          · exact Or.inr (Or.inr h)
        · simp only [h4, if_false]
          by_cases h5 : name = "chatroom".toList
          · simp only [h5, if_true]
            exact chatroom_builtin_outcome cnt args
          · simp only [h5, if_false]
            by_cases h6 : name = "battleship".toList
            · simp only [h6, if_true]
              exact battleship_builtin_outcome cnt args
            · simp only [h6, if_false]
              cases next <;> exact Or.inr (Or.inr rfl)

theorem process_command_exit (c : command_t) :
    (process_command c).1 = Outcome.returns 1 ↔ c.name = "exit".toList := by
  constructor
  · intro h
    rcases process_command_outcome c with h1 | h1 | h1
    · rw [h1] at h
      exact absurd h (by decide)
    · rw [h1] at h
      exact absurd h (by decide)
    · rw [h1] at h
      by_cases hx : c.name = "exit".toList
      · exact hx
      · rw [if_neg hx] at h
        exact absurd h (by decide)
  · intro h
    obtain ⟨name, bg, ac, cnt, args, red, next⟩ := c
    change name = "exit".toList at h
    subst h
    unfold process_command
    simp [EXIT]

/-- C7 (code at the failing inputs): `process_command` returns 1 exactly when
the name of the first stage is `exit`, and whenever it returns at all (at
once, or after the chatroom or battleship session it has started) it
returns 1 for `exit` and 0 for every other command; for the empty-named
command that `parse_command` makes of an empty or blank line it returns 0
and makes no call at all (no pipe, no fork).  But it does not return for
every command: for the line `chatroom room` the guard `arg_count < 3` does
not hold (`arg_count` is 3: name, one argument and `NULL`) and the session
is started with `NULL` as user name; for the line `battleship` the guard
`arg_count < 2` does not hold (`arg_count` is 2) and the session is started
with `NULL` as room name and a slot outside the argument array as user name.
Both calls have no defined result. -/
theorem process_command_return_code (fresh : Nat → command_t) (buf : Str)
    (hbuf : ∀ x ∈ buf, is_splitter x = true) :
    (∀ c : command_t, (process_command c).1 = Outcome.returns 1 ↔ c.name = "exit".toList) ∧
    (∀ c : command_t, (process_command c).1 = Outcome.undefined ∨
      (process_command c).1 = Outcome.after_session 0 ∨
      (process_command c).1 = Outcome.returns (if c.name = "exit".toList then 1 else 0)) ∧
    (∃ r, parse_command fresh buf zeroed = some r ∧ r.name = [] ∧
      process_command r = (Outcome.returns 0, [])) ∧
    (∃ r, parse_command fresh "chatroom room".toList zeroed = some r ∧ r.arg_count = 3 ∧
      r.args = [some "chatroom".toList, some "room".toList, none] ∧
      process_command r = (Outcome.undefined, [Action.undefined])) ∧
    (∃ r, parse_command fresh "battleship".toList zeroed = some r ∧ r.arg_count = 2 ∧
      r.args = [some "battleship".toList, none] ∧
      process_command r = (Outcome.undefined, [Action.undefined])) := by
  obtain ⟨r, hr, hn⟩ := parse_command_blank fresh buf zeroed hbuf
  exact ⟨process_command_exit, process_command_outcome,
    ⟨r, hr, hn, process_command_empty_name r hn⟩,
    ⟨_, rfl, rfl, rfl, rfl⟩, ⟨_, rfl, rfl, rfl, rfl⟩⟩

/-- Witness for C7: a line of two blanks and a tab. -/
theorem process_command_return_code_witness :
    (∀ x ∈ [' ', ' ', Char.ofNat 9], is_splitter x = true) ∧
    ((∀ c : command_t, (process_command c).1 = Outcome.returns 1 ↔ c.name = "exit".toList) ∧
    (∀ c : command_t, (process_command c).1 = Outcome.undefined ∨
      (process_command c).1 = Outcome.after_session 0 ∨
      (process_command c).1 = Outcome.returns (if c.name = "exit".toList then 1 else 0)) ∧
    (∃ r, parse_command (fun _ => zeroed) [' ', ' ', Char.ofNat 9] zeroed = some r ∧
      r.name = [] ∧ process_command r = (Outcome.returns 0, [])) ∧
    (∃ r, parse_command (fun _ => zeroed) "chatroom room".toList zeroed = some r ∧
      r.arg_count = 3 ∧
      r.args = [some "chatroom".toList, some "room".toList, none] ∧
      process_command r = (Outcome.undefined, [Action.undefined])) ∧
    (∃ r, parse_command (fun _ => zeroed) "battleship".toList zeroed = some r ∧
      r.arg_count = 2 ∧
      r.args = [some "battleship".toList, none] ∧
      process_command r = (Outcome.undefined, [Action.undefined]))) :=
  ⟨by decide, process_command_return_code (fun _ => zeroed) [' ', ' ', Char.ofNat 9] (by decide)⟩

/-- C8 (code at the failing input): for the line `cat <in.txt | sort` the
parser records the input redirect `in.txt` on the first stage, but the
process of the first stage only wires its output to the pipe and calls
`exec_with_path`: it never opens `in.txt`; this holds whatever the block of
the second stage held before the parse, and the second conjunct gives the
whole run when that block was zero-filled.  The single-stage line
`cat <in.txt` does open the file and duplicate it onto standard input before
`exec_with_path`. -/
theorem pipeline_stage_skips_redirects : ∀ fresh : Nat → command_t,
    (∃ r s, parse_command fresh "cat <in.txt | sort".toList zeroed = some r ∧
      r.redirects 0 = some "in.txt".toList ∧ r.next = some s ∧
      (process_command r).2 =
        [Action.pipe,
         Action.fork [Action.dup2 Fd.pipe_write Fd.STDOUT_FILENO, Action.close Fd.pipe_read,
                      Action.close Fd.pipe_write,
                      Action.exec_with_path "cat".toList [some "cat".toList, none]],
         Action.fork ([Action.dup2 Fd.pipe_read Fd.STDIN_FILENO, Action.close Fd.pipe_write,
                       Action.close Fd.pipe_read] ++ (process_command s).2 ++
                      (if (process_command s).1 = Outcome.undefined then []
                       else [Action.exit 0])),
         Action.close Fd.pipe_read, Action.close Fd.pipe_write, Action.wait, Action.wait]) ∧
    (parse_command (fun _ => zeroed) "cat <in.txt | sort".toList zeroed).map
        (fun r => (process_command r).2) =
      some [Action.pipe,
       Action.fork [Action.dup2 Fd.pipe_write Fd.STDOUT_FILENO, Action.close Fd.pipe_read,
                    Action.close Fd.pipe_write,
                    Action.exec_with_path "cat".toList [some "cat".toList, none]],
       Action.fork [Action.dup2 Fd.pipe_read Fd.STDIN_FILENO, Action.close Fd.pipe_write,
                    Action.close Fd.pipe_read,
                    Action.fork [Action.exec_with_path "sort".toList [some "sort".toList, none]],
                    Action.wait,
                    Action.exit 0],
       Action.close Fd.pipe_read, Action.close Fd.pipe_write, Action.wait, Action.wait] ∧
    (parse_command fresh "cat <in.txt".toList zeroed).map (fun r => (process_command r).2) =
      some [Action.fork [Action.open_file "in.txt".toList OpenFlags.O_RDONLY,
                    Action.dup2 Fd.opened Fd.STDIN_FILENO, Action.close Fd.opened,
                    Action.exec_with_path "cat".toList [some "cat".toList, none]],
       Action.wait] := by
  intro fresh
  exact ⟨⟨_, _, rfl, rfl, rfl, rfl⟩, rfl, rfl⟩

theorem pipes_of_actions_cons_some (a : Action) (rest : List Action) (x y : Nat)
    (ha : pipes_of_action a = some x) (hr : pipes_of_actions rest = some y) :
    pipes_of_actions (a :: rest) = some (x + y) := by
  simp only [pipes_of_actions, ha, hr]

theorem pipes_of_actions_append_some : ∀ (a b : List Action) (x y : Nat),
    pipes_of_actions a = some x → pipes_of_actions b = some y →
    pipes_of_actions (a ++ b) = some (x + y) := by
  intro a
  induction a with
  | nil =>
    intro b x y ha hb
    simp only [pipes_of_actions, Option.some.injEq] at ha
    subst ha
    simpa using hb
  | cons e es ih =>
    intro b x y ha hb
    simp only [pipes_of_actions] at ha
    cases he : pipes_of_action e with
    | none => simp [he] at ha
    | some u =>
      cases hes : pipes_of_actions es with
      | none => simp [he, hes] at ha
      | some v =>
        simp only [he, hes, Option.some.injEq] at ha
        subst ha
        rw [List.cons_append, pipes_of_actions_cons_some e (es ++ b) u (v + y) he (ih b v y hes hb)]
        rw [Nat.add_assoc]

theorem pipes_of_apply_redirects (c : command_t) :
    pipes_of_actions (apply_redirects c) = some 0 := by
  unfold apply_redirects
  cases c.redirects 0 <;> cases c.redirects 1 <;> cases c.redirects 2 <;> rfl

theorem pipes_of_cut_builtin (args : List (Option Str))
    (hd : (cut_builtin args).1 ≠ Outcome.undefined) :
    pipes_of_actions (cut_builtin args).2 = some 0 := by
  revert hd
  unfold cut_builtin
  cases cut_options (args.drop 1) (Char.ofNat 9) none false with
  | out_of_bounds => intro hd; exact absurd rfl hd
  | missing_delimiter => intro _; rfl
  | missing_field_after => intro _; rfl
  | scanned d fs =>
    cases fs with
    | none => intro _; rfl
    | some f =>
      simp only []
      split
      · intro hd; exact absurd rfl hd
      · intro _; rfl

theorem pipes_of_cd_builtin (args : List (Option Str))
    (hd : (cd_builtin args).1 ≠ Outcome.undefined) :
    pipes_of_actions (cd_builtin args).2 = some 0 := by
  revert hd
  unfold cd_builtin
  cases args.get? 1 with
  | none => intro hd; exact absurd rfl hd
  | some p => intro _; rfl

/-- A built-in other than a session that has a defined result makes no
`pipe` call. -/
theorem pipes_of_builtin (c : command_t) (h : is_builtin c = true)
    (hs : is_session c = false) (hd : (process_command c).1 ≠ Outcome.undefined) :
    pipes_of_actions (process_command c).2 = some 0 := by
  obtain ⟨name, bg, ac, cnt, args, red, next⟩ := c
  simp only [is_builtin, decide_eq_true_eq] at h
  simp only [is_session, decide_eq_false_iff_not, not_or] at hs
  unfold process_command at hd ⊢
  by_cases h1 : name = []
  · simp [h1, pipes_of_actions]
  · by_cases h2 : name = "exit".toList
    · simp [h2, pipes_of_actions]
    · by_cases h3 : name = "cd".toList ∧ cnt > 0
      · simp only [h1, h2, h3, and_self, if_true, if_false] at hd ⊢
        exact pipes_of_cd_builtin args hd
      · by_cases h4 : name = "cut".toList
        · simp only [h1, h2, h3, h4, if_true, if_false] at hd ⊢
          exact pipes_of_cut_builtin args hd
        · exfalso
          rcases h with h | h | h | h | h | h
          · exact h1 h
          · exact h2 h
          · exact h3 h
          · exact h4 h
          · exact hs.1 h
          · exact hs.2 h

theorem process_command_spawn (name : Str) (bg ac : Bool) (cnt : Int)
    (args : List (Option Str)) (red : Fin 3 → Option Str) (next : Option command_t)
    (h : is_builtin ⟨name, bg, ac, cnt, args, red, next⟩ = false) :
    process_command ⟨name, bg, ac, cnt, args, red, next⟩ =
      (match next with
       | some nxt =>
         (Outcome.returns 0,
          [Action.pipe,
           Action.fork [Action.dup2 Fd.pipe_write Fd.STDOUT_FILENO, Action.close Fd.pipe_read,
                        Action.close Fd.pipe_write, Action.exec_with_path name args],
           Action.fork ([Action.dup2 Fd.pipe_read Fd.STDIN_FILENO, Action.close Fd.pipe_write,
                         Action.close Fd.pipe_read] ++ (process_command nxt).2 ++
                        (if (process_command nxt).1 = Outcome.undefined then []
                         else [Action.exit 0])),
           Action.close Fd.pipe_read, Action.close Fd.pipe_write, Action.wait, Action.wait])
       | none =>
         (Outcome.returns 0,
          [Action.fork (apply_redirects ⟨name, bg, ac, cnt, args, red, next⟩ ++
             [Action.exec_with_path name args])] ++
           (if bg ≠ true then [Action.wait] else []))) := by
  simp only [is_builtin, decide_eq_false_iff_not, not_or] at h
  obtain ⟨h1, h2, h3, h4, h5, h6⟩ := h
  conv_lhs => unfold process_command
  simp only [h1, h2, h3, h4, h5, h6, if_false]
  cases next <;> rfl

theorem chain_length_pos (c : command_t) : 0 < chain_length c := by
  obtain ⟨_, _, _, _, _, _, next⟩ := c
  cases next <;> simp [chain_length]

theorem chain_length_next (c s : command_t) (h : c.next = some s) :
    chain_length c = chain_length s + 1 := by
  obtain ⟨_, _, _, _, _, _, next⟩ := c
  change next = some s at h
  subst h
  rfl

theorem pipes_chain_aux (n : Nat) : ∀ c : command_t, chain_length c = n →
    no_builtin_before_last c = true → is_session (last_stage c) = false →
    (process_command (last_stage c)).1 ≠ Outcome.undefined →
    pipes_of_actions (process_command c).2 = some (chain_length c - 1) := by
  induction n with
  | zero =>
    intro c hc _ _ _
    have := chain_length_pos c
    omega
  | succ n ih =>
    intro c hc hb hs hd
    obtain ⟨name, bg, ac, cnt, args, red, next⟩ := c
    cases next with
    | none =>
      simp only [last_stage] at hs hd
      simp only [chain_length, Nat.sub_self]
      by_cases hbi : is_builtin ⟨name, bg, ac, cnt, args, red, none⟩ = true
      · exact pipes_of_builtin _ hbi hs hd
      · rw [process_command_spawn _ _ _ _ _ _ _ (by simpa using hbi)]
        simp only []
        have h1 := pipes_of_apply_redirects ⟨name, bg, ac, cnt, args, red, none⟩
        have h2 : pipes_of_actions (if bg ≠ true then [Action.wait] else []) = some 0 := by
          split <;> rfl
        have h3 : pipes_of_actions
            (apply_redirects ⟨name, bg, ac, cnt, args, red, none⟩ ++
              [Action.exec_with_path name args]) = some (0 + 0) :=
          pipes_of_actions_append_some _ _ 0 0 h1 rfl
        have h4 : pipes_of_actions
            [Action.fork (apply_redirects ⟨name, bg, ac, cnt, args, red, none⟩ ++
              [Action.exec_with_path name args])] = some (0 + 0) :=
          pipes_of_actions_cons_some _ _ 0 0 (by simpa [pipes_of_action] using h3) rfl
        exact pipes_of_actions_append_some _ _ 0 0 h4 h2
    | some nxt =>
      simp only [last_stage] at hs hd
      simp only [no_builtin_before_last, Bool.and_eq_true, Bool.not_eq_true'] at hb
      simp only [chain_length, Nat.add_sub_cancel] at hc ⊢
      have hn : chain_length nxt = n := by omega
      have hrec := ih nxt hn hb.2 hs hd
      rw [process_command_spawn _ _ _ _ _ _ _ hb.1]
      simp only []
      have hpos := chain_length_pos nxt
      have htail : pipes_of_actions
          (if (process_command nxt).1 = Outcome.undefined then [] else [Action.exit 0]) =
            some 0 := by
        split <;> rfl
      have hchild : pipes_of_actions
          ([Action.dup2 Fd.pipe_read Fd.STDIN_FILENO, Action.close Fd.pipe_write,
            Action.close Fd.pipe_read] ++ (process_command nxt).2 ++
            (if (process_command nxt).1 = Outcome.undefined then [] else [Action.exit 0])) =
            some (0 + (chain_length nxt - 1) + 0) :=
        pipes_of_actions_append_some _ _ _ _
          (pipes_of_actions_append_some _ _ 0 _ rfl hrec) htail
      have hfork : pipes_of_action (Action.fork
          ([Action.dup2 Fd.pipe_read Fd.STDIN_FILENO, Action.close Fd.pipe_write,
            Action.close Fd.pipe_read] ++ (process_command nxt).2 ++
            (if (process_command nxt).1 = Outcome.undefined then [] else [Action.exit 0]))) =
            some (chain_length nxt - 1) := by
        simp only [pipes_of_action]
        rw [hchild]
        simp
      have hrest : pipes_of_actions
          [Action.close Fd.pipe_read, Action.close Fd.pipe_write, Action.wait, Action.wait] =
            some 0 := rfl
      have h2 := pipes_of_actions_cons_some _ _ _ _ hfork hrest
      have h1 := pipes_of_actions_cons_some
        (Action.fork [Action.dup2 Fd.pipe_write Fd.STDOUT_FILENO, Action.close Fd.pipe_read,
          Action.close Fd.pipe_write, Action.exec_with_path name args]) _ 0 _ rfl h2
      have h0 := pipes_of_actions_cons_some Action.pipe _ 1 _ rfl h1
      rw [h0]
      congr 1
      omega

/-- C9 (as stated) fails: the chain parsed from `cd /tmp | ls` has at least
two stages, but it is handled by the `cd` built-in, which returns before any
pipe is made; this holds whatever the block of the second stage held before
the parse. -/
theorem builtin_chain_no_pipe_counterexample :
    ¬ ∃ (fresh : Nat → command_t) (r : command_t),
      parse_command fresh "cd /tmp | ls".toList zeroed = some r ∧
      pipes_of_actions (process_command r).2 = some (chain_length r - 1) := by
  rintro ⟨fresh, r, hr, hp⟩
  obtain ⟨r0, s, h1, hnext, h2⟩ : ∃ r0 s,
      parse_command fresh "cd /tmp | ls".toList zeroed = some r0 ∧ r0.next = some s ∧
      pipes_of_actions (process_command r0).2 = some 0 := ⟨_, _, rfl, rfl, rfl⟩
  rw [h1, Option.some.injEq] at hr
  subst hr
  have hlen := chain_length_next r0 s hnext
  have hpos := chain_length_pos s
  rw [h2, Option.some.injEq] at hp
  omega

/-- C9 (amended): for every command chain of N >= 1 stages in which no stage
other than the last is handled as a built-in (empty name, `exit`, `cd`,
`cut`, `chatroom`, `battleship`), whose last stage is not `chatroom` or
`battleship` (a session makes `pipe` calls of its own, one for every message
sent) and whose last stage has a defined result, running `process_command`
makes exactly N - 1 `pipe` calls, the calls of the recursive invocations in
the forked children included. -/
theorem pipeline_pipe_count (c : command_t) (h : no_builtin_before_last c = true)
    (hs : is_session (last_stage c) = false)
    (hd : (process_command (last_stage c)).1 ≠ Outcome.undefined) :
    pipes_of_actions (process_command c).2 = some (chain_length c - 1) :=
  pipes_chain_aux _ c rfl h hs hd

/-- Witness for C9: the three-stage chain parsed from `ls -la | grep foo | wc`
when the blocks of the later stages were zero-filled. -/
theorem pipeline_pipe_count_witness :
    (parse_command (fun _ => zeroed) "ls -la | grep foo | wc".toList zeroed).isSome = true ∧
    no_builtin_before_last
      ((parse_command (fun _ => zeroed) "ls -la | grep foo | wc".toList zeroed).getD zeroed)
        = true ∧
    is_session (last_stage
      ((parse_command (fun _ => zeroed) "ls -la | grep foo | wc".toList zeroed).getD zeroed))
        = false ∧
    (process_command (last_stage
      ((parse_command (fun _ => zeroed) "ls -la | grep foo | wc".toList zeroed).getD zeroed))).1
        ≠ Outcome.undefined ∧
    chain_length
      ((parse_command (fun _ => zeroed) "ls -la | grep foo | wc".toList zeroed).getD zeroed)
        = 3 ∧
    pipes_of_actions (process_command
      ((parse_command (fun _ => zeroed) "ls -la | grep foo | wc".toList zeroed).getD
        zeroed)).2 =
      some (chain_length
        ((parse_command (fun _ => zeroed) "ls -la | grep foo | wc".toList zeroed).getD zeroed)
          - 1) :=
  ⟨by decide, by decide, by decide, by decide, by decide,
   pipeline_pipe_count
     ((parse_command (fun _ => zeroed) "ls -la | grep foo | wc".toList zeroed).getD zeroed)
     (by decide) (by decide) (by decide)⟩

/-! ## Ship placement -/

theorem foldl_mark {α : Type} (L : List α) (f : α → Board → Board)
    (Q : α → Fin 10 → Fin 10 → Prop)
    (hf : ∀ a b r c, (Q a r c → f a b r c = 'S') ∧ (¬ Q a r c → f a b r c = b r c)) :
    ∀ (b : Board) (r c : Fin 10),
      ((∃ a ∈ L, Q a r c) → (L.foldl (fun s a => f a s) b) r c = 'S') ∧
      ((¬ ∃ a ∈ L, Q a r c) → (L.foldl (fun s a => f a s) b) r c = b r c) := by
  induction L with
  | nil =>
    intro b r c
    simp
  | cons a L ih =>
    intro b r c
    simp only [List.foldl_cons]
    obtain ⟨ih1, ih2⟩ := ih (f a b) r c
    constructor
    · rintro ⟨x, hx, hq⟩
      by_cases hL : ∃ a ∈ L, Q a r c
      · exact ih1 hL
      · rw [ih2 hL]
        rcases List.mem_cons.mp hx with h | h
        · subst h
          exact (hf x b r c).1 hq
        · exact absurd ⟨x, h, hq⟩ hL
    · intro hn
      have hL : ¬ ∃ a ∈ L, Q a r c := by
        rintro ⟨x, hx, hq⟩
        exact hn ⟨x, List.mem_cons_of_mem _ hx, hq⟩
      have ha : ¬ Q a r c := fun hq => hn ⟨a, List.mem_cons_self _ _, hq⟩
      rw [ih2 hL, (hf a b r c).2 ha]

theorem range_exists_iff (lo hi x : Int) :
    (∃ k ∈ List.range (hi + 1 - lo).toNat, x = lo + (k : Int)) ↔ lo ≤ x ∧ x ≤ hi := by
  constructor
  · rintro ⟨k, hk, rfl⟩
    have := List.mem_range.mp hk
    omega
  · rintro ⟨h1, h2⟩
    refine ⟨(x - lo).toNat, List.mem_range.mpr (by omega), by omega⟩

theorem row_loop_cell (i lo hi : Int) (b : Board) (r c : Fin 10) :
    for_loop lo hi (fun j board =>
        if i ≥ 0 ∧ i < 10 ∧ j ≥ 0 ∧ j < 10 then set_cell board i j 'S' else board) b r c =
      if (r.val : Int) = i ∧ lo ≤ (c.val : Int) ∧ (c.val : Int) ≤ hi then 'S' else b r c := by
  have hf : ∀ (k : Nat) (b : Board) (r c : Fin 10),
      (((r.val : Int) = i ∧ (c.val : Int) = lo + (k : Int)) →
        (if i ≥ 0 ∧ i < 10 ∧ lo + (k : Int) ≥ 0 ∧ lo + (k : Int) < 10
          then set_cell b i (lo + (k : Int)) 'S' else b) r c = 'S') ∧
      (¬ ((r.val : Int) = i ∧ (c.val : Int) = lo + (k : Int)) →
        (if i ≥ 0 ∧ i < 10 ∧ lo + (k : Int) ≥ 0 ∧ lo + (k : Int) < 10
          then set_cell b i (lo + (k : Int)) 'S' else b) r c = b r c) := by
    intro k b r c
    constructor
    · rintro ⟨h1, h2⟩
      have hr := r.isLt
      have hc := c.isLt
      have hg : i ≥ 0 ∧ i < 10 ∧ lo + (k : Int) ≥ 0 ∧ lo + (k : Int) < 10 := by omega
      simp only [hg, and_self, if_true, set_cell, h1, h2]
    · intro hn
      split
      · simp only [set_cell, hn, if_false]
      · rfl
  have key := foldl_mark (List.range (hi + 1 - lo).toNat)
    (fun (k : Nat) (board : Board) =>
      if i ≥ 0 ∧ i < 10 ∧ lo + (k : Int) ≥ 0 ∧ lo + (k : Int) < 10
        then set_cell board i (lo + (k : Int)) 'S' else board)
    (fun k r c => (r.val : Int) = i ∧ (c.val : Int) = lo + (k : Int)) hf b r c
  have hiff : (∃ k ∈ List.range (hi + 1 - lo).toNat,
      (r.val : Int) = i ∧ (c.val : Int) = lo + (k : Int)) ↔
      ((r.val : Int) = i ∧ lo ≤ (c.val : Int) ∧ (c.val : Int) ≤ hi) := by
    rw [← range_exists_iff lo hi (c.val : Int)]
    constructor
    · rintro ⟨k, hk, h1, h2⟩
      exact ⟨h1, k, hk, h2⟩
    · rintro ⟨h1, k, hk, h2⟩
      exact ⟨k, hk, h1, h2⟩
  unfold for_loop
  by_cases h : (r.val : Int) = i ∧ lo ≤ (c.val : Int) ∧ (c.val : Int) ≤ hi
  · rw [if_pos h]
    exact key.1 (hiff.mpr h)
  · rw [if_neg h]
    exact key.2 (fun hex => h (hiff.mp hex))

theorem rect_loop_cell (rlo rhi clo chi : Int) (b : Board) (r c : Fin 10) :
    for_loop rlo rhi (fun i board =>
        for_loop clo chi (fun j board =>
          if i ≥ 0 ∧ i < 10 ∧ j ≥ 0 ∧ j < 10 then set_cell board i j 'S' else board) board)
      b r c =
      if rlo ≤ (r.val : Int) ∧ (r.val : Int) ≤ rhi ∧ clo ≤ (c.val : Int) ∧ (c.val : Int) ≤ chi
      then 'S' else b r c := by
  have hf : ∀ (k : Nat) (b : Board) (r c : Fin 10),
      (((r.val : Int) = rlo + (k : Int) ∧ clo ≤ (c.val : Int) ∧ (c.val : Int) ≤ chi) →
        for_loop clo chi (fun j board =>
          if rlo + (k : Int) ≥ 0 ∧ rlo + (k : Int) < 10 ∧ j ≥ 0 ∧ j < 10
            then set_cell board (rlo + (k : Int)) j 'S' else board) b r c = 'S') ∧
      (¬ ((r.val : Int) = rlo + (k : Int) ∧ clo ≤ (c.val : Int) ∧ (c.val : Int) ≤ chi) →
        for_loop clo chi (fun j board =>
          if rlo + (k : Int) ≥ 0 ∧ rlo + (k : Int) < 10 ∧ j ≥ 0 ∧ j < 10
            then set_cell board (rlo + (k : Int)) j 'S' else board) b r c = b r c) := by
    intro k b r c
    rw [row_loop_cell]
    constructor
    · intro h; rw [if_pos h]
    · intro h; rw [if_neg h]
  have key := foldl_mark (List.range (rhi + 1 - rlo).toNat)
    (fun (k : Nat) (board : Board) =>
      for_loop clo chi (fun j board =>
        if rlo + (k : Int) ≥ 0 ∧ rlo + (k : Int) < 10 ∧ j ≥ 0 ∧ j < 10
          then set_cell board (rlo + (k : Int)) j 'S' else board) board)
    (fun k r c => (r.val : Int) = rlo + (k : Int) ∧ clo ≤ (c.val : Int) ∧ (c.val : Int) ≤ chi)
    hf b r c
  have hiff : (∃ k ∈ List.range (rhi + 1 - rlo).toNat,
      (r.val : Int) = rlo + (k : Int) ∧ clo ≤ (c.val : Int) ∧ (c.val : Int) ≤ chi) ↔
      (rlo ≤ (r.val : Int) ∧ (r.val : Int) ≤ rhi ∧ clo ≤ (c.val : Int) ∧ (c.val : Int) ≤ chi) := by
    constructor
    · rintro ⟨k, hk, h1, h2⟩
      have := (range_exists_iff rlo rhi (r.val : Int)).mp ⟨k, hk, h1⟩
      exact ⟨this.1, this.2, h2⟩
    · rintro ⟨h1, h2, h3⟩
      obtain ⟨k, hk, hx⟩ := (range_exists_iff rlo rhi (r.val : Int)).mpr ⟨h1, h2⟩
      exact ⟨k, hk, hx, h3⟩
  unfold for_loop
  by_cases h : rlo ≤ (r.val : Int) ∧ (r.val : Int) ≤ rhi ∧ clo ≤ (c.val : Int) ∧ (c.val : Int) ≤ chi
  · rw [if_pos h]
    exact key.1 (hiff.mpr h)
  · rw [if_neg h]
    exact key.2 (fun hex => h (hiff.mp hex))

theorem digit_not_space (d : Char) (h : isdigit d = true) :
    isspace d = false ∧ d ≠ '-' ∧ d ≠ '+' := by
  simp only [isdigit, Bool.and_eq_true, decide_eq_true_eq] at h
  refine ⟨?_, ?_, ?_⟩
  · simp only [isspace, Bool.or_eq_false_iff, Bool.and_eq_false_iff, decide_eq_false_iff_not,
      beq_eq_false_iff_ne, ne_eq]
    refine ⟨?_, by omega⟩
    intro h0
    subst h0
    simp at h
  · intro h0
    subst h0
    simp at h
  · intro h0
    subst h0
    simp at h

theorem scan_int_digits (ds rest : Str) (hne : ds ≠ []) (hd : ∀ d ∈ ds, isdigit d = true)
    (hrest : ∀ x ∈ rest.take 1, isdigit x = false) :
    scan_int (ds ++ rest) = some ((decimal ds : Int), rest) := by
  obtain ⟨d, t, rfl⟩ := List.exists_cons_of_ne_nil hne
  obtain ⟨hsp, hm, hp⟩ := digit_not_space d (hd d (by simp))
  have h0 : (d :: t ++ rest).dropWhile isspace = d :: t ++ rest := by
    simp [List.dropWhile_cons, hsp]
  have hhead : (d :: t ++ rest).head? = some d := rfl
  have htake : (d :: t ++ rest).takeWhile isdigit = d :: t := by
    rw [List.takeWhile_append_of_pos hd]
    cases rest with
    | nil => simp
    | cons x r => simp [List.takeWhile_cons, hrest x (by simp)]
  have hdrop : (d :: t ++ rest).dropWhile isdigit = rest := by
    rw [List.dropWhile_append_of_pos hd]
    cases rest with
    | nil => simp
    | cons x r => simp [List.dropWhile_cons, hrest x (by simp)]
  unfold scan_int
  simp only [h0, hhead, Option.some.injEq, hm, hp, if_false, htake, hdrop]
  simp

theorem sscanf_range_string (c1 c2 : Char) (ds1 ds2 : Str) (hc1 : isspace c1 = false)
    (h1 : ds1 ≠ []) (hd1 : ∀ d ∈ ds1, isdigit d = true)
    (h2 : ds2 ≠ []) (hd2 : ∀ d ∈ ds2, isdigit d = true) :
    sscanf_range (c1 :: ds1 ++ ':' :: c2 :: ds2) =
      some (c1, (decimal ds1 : Int), c2, (decimal ds2 : Int)) := by
  have ha := scan_int_digits ds1 (':' :: c2 :: ds2) h1 hd1
    (by intro x hx; simp at hx; rw [hx]; decide)
  have hb := scan_int_digits ds2 [] h2 hd2 (by simp)
  rw [List.append_nil] at hb
  have h0 : (c1 :: ds1 ++ ':' :: c2 :: ds2).dropWhile isspace = c1 :: (ds1 ++ ':' :: c2 :: ds2) := by
    simp [List.dropWhile_cons, hc1]
  unfold sscanf_range
  rw [h0]
  simp only [ha, hb]

/-- C10 (as stated) fails when the endpoints are given in the other order:
`A3:A1` on the empty board marks no cell at all, not even A2. -/
theorem place_ship_reversed_counterexample :
    (∀ r c : Fin 10, place_ship empty_board "A3:A1".toList r c = '.') ∧
    ¬ (∀ r c : Fin 10, place_ship empty_board "A3:A1".toList r c =
        if c.val = 0 ∧ r.val ≤ 2 then 'S' else '.') := by
  decide

/-- C10 (amended): for every board and every range string `<c1><r1>:<c2><r2>`
(a character, a decimal number that fits a C `int`, a colon, a character, a
decimal number), `place_ship` sets to SHIP exactly the cells of the grid whose
row lies from `r1` up to `r2` and whose column lies from the column of `c1` up
to the column of `c2` (inclusive, letters taken through `toupper`), and leaves
every other cell unchanged; cells of the span outside the grid are dropped,
and when `r2 < r1` or the second column is left of the first no cell changes.
In particular `A1:A3` on the empty board yields a board whose SHIP cells are
exactly A1, A2 and A3. -/
theorem place_ship_rectangle (board : Board) (c1 c2 : Char) (ds1 ds2 : Str)
    (hc1 : isspace c1 = false)
    (h1 : ds1 ≠ []) (hd1 : ∀ d ∈ ds1, isdigit d = true)
    (h2 : ds2 ≠ []) (hd2 : ∀ d ∈ ds2, isdigit d = true)
    (_hr1 : decimal ds1 < 2 ^ 31) (_hr2 : decimal ds2 < 2 ^ 31) :
    (∀ r c : Fin 10, place_ship board (c1 :: ds1 ++ ':' :: c2 :: ds2) r c =
        if (decimal ds1 : Int) - 1 ≤ (r.val : Int) ∧ (r.val : Int) ≤ (decimal ds2 : Int) - 1 ∧
           toupper c1 - 65 ≤ (c.val : Int) ∧ (c.val : Int) ≤ toupper c2 - 65
        then 'S' else board r c) ∧
    (∀ r c : Fin 10, place_ship empty_board "A1:A3".toList r c =
        if c.val = 0 ∧ r.val ≤ 2 then 'S' else '.') := by
  refine ⟨?_, by decide⟩
  intro r c
  unfold place_ship
  rw [sscanf_range_string c1 c2 ds1 ds2 hc1 h1 hd1 h2 hd2]
  simp only []
  rw [rect_loop_cell]

/-- Witness for C10: the range `B2:D3` on the empty board. -/
theorem place_ship_rectangle_witness :
    isspace 'B' = false ∧ "2".toList ≠ [] ∧ (∀ d ∈ "2".toList, isdigit d = true) ∧
    "3".toList ≠ [] ∧ (∀ d ∈ "3".toList, isdigit d = true) ∧
    decimal "2".toList < 2 ^ 31 ∧ decimal "3".toList < 2 ^ 31 ∧
    (∀ r c : Fin 10, place_ship empty_board ('B' :: "2".toList ++ ':' :: 'D' :: "3".toList) r c =
        if (decimal "2".toList : Int) - 1 ≤ (r.val : Int) ∧
           (r.val : Int) ≤ (decimal "3".toList : Int) - 1 ∧
           toupper 'B' - 65 ≤ (c.val : Int) ∧ (c.val : Int) ≤ toupper 'D' - 65
        then 'S' else empty_board r c) :=
  ⟨by decide, by decide, by decide, by decide, by decide, by decide, by decide,
   (place_ship_rectangle empty_board 'B' 'D' "2".toList "3".toList
      (by decide) (by decide) (by decide) (by decide) (by decide) (by decide) (by decide)).1⟩

/-! ## Battleship: lemmas on the receiver -/

theorem attack_fields : ∀ col row : Fin 10,
    ("ATTACK:".toList ++ coord_str col row).take 7 = "ATTACK:".toList ∧
    ("ATTACK:".toList ++ coord_str col row).getD 7 (Char.ofNat 0) = Char.ofNat (65 + col.val) ∧
    atoi (("ATTACK:".toList ++ coord_str col row).drop 8) = (row.val : Int) + 1 ∧
    toupper (Char.ofNat (65 + col.val)) - 65 = (col.val : Int) ∧
    Char.ofNat (65 + col.val) :: fmt_d ((row.val : Int) + 1) = coord_str col row ∧
    ("ATTACK:".toList ++ coord_str col row).drop 7 = coord_str col row := by
  decide

theorem get_cell_fin (board : Board) (row col : Fin 10) :
    get_cell board (row.val : Int) (col.val : Int) = some (board row col) := by
  have hr := row.isLt
  have hc := col.isLt
  unfold get_cell
  rw [dif_pos (by omega)]
  simp

theorem set_cell_fin (board : Board) (row col i j : Fin 10) (v : Char) :
    set_cell board (row.val : Int) (col.val : Int) v i j =
      if i = row ∧ j = col then v else board i j := by
  unfold set_cell
  by_cases h : i = row ∧ j = col
  · obtain ⟨h1, h2⟩ := h
    subst h1 h2
    simp
  · rw [if_neg h, if_neg]
    intro hh
    apply h
    exact ⟨Fin.ext (by exact_mod_cast hh.1), Fin.ext (by exact_mod_cast hh.2)⟩

theorem all_ships_destroyed_iff (board : Board) :
    all_ships_destroyed board = true ↔ ∀ i j : Fin 10, board i j ≠ 'S' := by
  simp [all_ships_destroyed, List.all_eq_true]

theorem attack_step_eq (s : GameState) (col row : Fin 10) :
    receiver_step s ("ATTACK:".toList ++ coord_str col row) =
      (if s.my_board row col = 'S' then
        (if all_ships_destroyed (set_cell s.my_board (row.val : Int) (col.val : Int) 'X') = true
         then
          some ({ s with my_board := set_cell s.my_board (row.val : Int) (col.val : Int) 'X' },
            [GameAction.send_to_other ("RESULT:HIT:".toList ++ coord_str col row),
             GameAction.write (LF :: "[!!!] WE GOT HIT! (".toList),
             GameAction.write (coord_str col row),
             GameAction.write [')', LF],
             GameAction.send_to_other ("RESULT:WIN:".toList ++ coord_str col row),
             GameAction.write (LF :: "*** GAME OVER - YOU LOST ***".toList ++
               [LF, Char.ofNat 0])],
            Flow.exited)
         else
          some ({ s with my_board := set_cell s.my_board (row.val : Int) (col.val : Int) 'X' },
            [GameAction.send_to_other ("RESULT:HIT:".toList ++ coord_str col row),
             GameAction.write (LF :: "[!!!] WE GOT HIT! (".toList),
             GameAction.write (coord_str col row),
             GameAction.write [')', LF],
             GameAction.print_board "MY BOARD STATUS".toList,
             GameAction.write "BattleCommand> ".toList],
            Flow.next))
      else
        some ({ s with my_board :=
                  if s.my_board row col = '.'
                  then set_cell s.my_board (row.val : Int) (col.val : Int) 'O'
                  else s.my_board },
          [GameAction.send_to_other ("RESULT:MISS:".toList ++ coord_str col row),
           GameAction.write (LF :: "[MISS] Opponent missed.".toList ++ [LF]),
           GameAction.print_board "MY BOARD STATUS".toList,
           GameAction.write "BattleCommand> ".toList],
          Flow.next)) := by
  obtain ⟨h1, h2, h3, h4, h5, h6⟩ := attack_fields col row
  have hr : (row.val : Int) + 1 - 1 = (row.val : Int) := by omega
  unfold receiver_step
  rw [if_pos h1]
  unfold on_attack
  simp only [h2, h3, h4, h6, hr, get_cell_fin, h5]
  by_cases hS : s.my_board row col = 'S'
  · simp only [hS, if_true]
    by_cases hA : all_ships_destroyed
        (set_cell s.my_board (row.val : Int) (col.val : Int) 'X') = true
    · simp only [hA, if_true, List.cons_append, List.nil_append]
    · simp only [hA, if_false, List.cons_append, List.nil_append]
  · simp only [hS, if_false]

/-- C11 (as stated) fails: on an own board whose only SHIP cell is A1, the
message `ATTACK:A1` makes the receiver broadcast `RESULT:HIT:A1` and then
`RESULT:WIN:A1`, not `RESULT:WIN:A1` alone. -/
theorem last_ship_attack_counterexample :
    (receiver_step ⟨0, set_cell empty_board 0 0 'S', empty_board⟩ "ATTACK:A1".toList).map
        (fun x => broadcasts x.2.1) = some ["RESULT:HIT:A1".toList, "RESULT:WIN:A1".toList] ∧
    ¬ ((receiver_step ⟨0, set_cell empty_board 0 0 'S', empty_board⟩ "ATTACK:A1".toList).map
        (fun x => broadcasts x.2.1) = some ["RESULT:WIN:A1".toList]) := by
  decide

/-- C11 (amended): for every own board and every well-formed message
`ATTACK:<coord>` on a SHIP cell, the receiver sets the cell to HIT and
broadcasts `RESULT:HIT:<coord>`.  When that was the only SHIP cell it then
broadcasts `RESULT:WIN:<coord>` as well (in addition to the HIT message),
writes the game-over notice and ends with `exit(0)`; when other SHIP cells
remain it broadcasts nothing else, prints the board and goes on with the
loop.  No other cell and neither the opponent view nor the flag changes. -/
theorem last_ship_attack (s : GameState) (col row : Fin 10)
    (hship : s.my_board row col = 'S') :
    ((∀ i j : Fin 10, s.my_board i j = 'S' → i = row ∧ j = col) →
      receiver_step s ("ATTACK:".toList ++ coord_str col row) =
        some ({ s with my_board := set_cell s.my_board (row.val : Int) (col.val : Int) 'X' },
          [GameAction.send_to_other ("RESULT:HIT:".toList ++ coord_str col row),
           GameAction.write (LF :: "[!!!] WE GOT HIT! (".toList),
           GameAction.write (coord_str col row),
           GameAction.write [')', LF],
           GameAction.send_to_other ("RESULT:WIN:".toList ++ coord_str col row),
           GameAction.write (LF :: "*** GAME OVER - YOU LOST ***".toList ++ [LF, Char.ofNat 0])],
          Flow.exited)) ∧
    ((∃ i j : Fin 10, (i ≠ row ∨ j ≠ col) ∧ s.my_board i j = 'S') →
      receiver_step s ("ATTACK:".toList ++ coord_str col row) =
        some ({ s with my_board := set_cell s.my_board (row.val : Int) (col.val : Int) 'X' },
          [GameAction.send_to_other ("RESULT:HIT:".toList ++ coord_str col row),
           GameAction.write (LF :: "[!!!] WE GOT HIT! (".toList),
           GameAction.write (coord_str col row),
           GameAction.write [')', LF],
           GameAction.print_board "MY BOARD STATUS".toList,
           GameAction.write "BattleCommand> ".toList],
          Flow.next)) ∧
    (∀ i j : Fin 10, set_cell s.my_board (row.val : Int) (col.val : Int) 'X' i j =
      if i = row ∧ j = col then 'X' else s.my_board i j) := by
  refine ⟨?_, ?_, fun i j => set_cell_fin _ _ _ _ _ _⟩
  · intro honly
    have hA : all_ships_destroyed
        (set_cell s.my_board (row.val : Int) (col.val : Int) 'X') = true := by
      rw [all_ships_destroyed_iff]
      intro i j
      rw [set_cell_fin]
      by_cases h : i = row ∧ j = col
      · rw [if_pos h]; decide
      · rw [if_neg h]
        exact fun hS => h (honly i j hS)
    rw [attack_step_eq, if_pos hship, if_pos hA]
  · rintro ⟨i, j, hne, hS⟩
    have hA : ¬ all_ships_destroyed
        (set_cell s.my_board (row.val : Int) (col.val : Int) 'X') = true := by
      rw [all_ships_destroyed_iff]
      intro hall
      have := hall i j
      rw [set_cell_fin, if_neg (by
        intro hh
        rcases hne with h | h
        · exact h hh.1
        · exact h hh.2)] at this
      exact this hS
    rw [attack_step_eq, if_pos hship, if_neg hA]

/-- Witness for C11: the board whose only SHIP cell is B3, attacked at B3. -/
theorem last_ship_attack_witness :
    (⟨0, set_cell empty_board 2 1 'S', empty_board⟩ : GameState).my_board 2 1 = 'S' ∧
    (∀ i j : Fin 10, (⟨0, set_cell empty_board 2 1 'S', empty_board⟩ : GameState).my_board i j
        = 'S' → i = 2 ∧ j = 1) ∧
    receiver_step ⟨0, set_cell empty_board 2 1 'S', empty_board⟩
        ("ATTACK:".toList ++ coord_str 1 2) =
      some ({ (⟨0, set_cell empty_board 2 1 'S', empty_board⟩ : GameState) with
              my_board := set_cell (set_cell empty_board 2 1 'S')
                (((2 : Fin 10).val : Int)) (((1 : Fin 10).val : Int)) 'X' },
        [GameAction.send_to_other ("RESULT:HIT:".toList ++ coord_str 1 2),
         GameAction.write (LF :: "[!!!] WE GOT HIT! (".toList),
         GameAction.write (coord_str 1 2),
         GameAction.write [')', LF],
         GameAction.send_to_other ("RESULT:WIN:".toList ++ coord_str 1 2),
         GameAction.write (LF :: "*** GAME OVER - YOU LOST ***".toList ++ [LF, Char.ofNat 0])],
        Flow.exited) :=
  ⟨by decide, by decide,
   (last_ship_attack ⟨0, set_cell empty_board 2 1 'S', empty_board⟩ 1 2 (by decide)).1
     (by decide)⟩

/-- C12 (code at the failing input): the message `RESULT:HIT:A10` marks the
opponent-view cell A1 (row 1) as HIT and leaves A10 as it was, because the
row is read from the single character after the column letter.  A one-digit
row is marked in place (`RESULT:HIT:A9`, `RESULT:MISS:C4`), and the ATTACK
branch, which reads the row with `atoi`, does reach row 10. -/
theorem result_row_ten_marks_row_one :
    (receiver_step ⟨0, empty_board, empty_board⟩ "RESULT:HIT:A10".toList).map
        (fun x => (x.1.enemy_view 0 0, x.1.enemy_view 9 0)) = some ('X', '.') ∧
    (receiver_step ⟨0, empty_board, empty_board⟩ "RESULT:MISS:J10".toList).map
        (fun x => (x.1.enemy_view 0 9, x.1.enemy_view 9 9)) = some ('O', '.') ∧
    (receiver_step ⟨0, empty_board, empty_board⟩ "RESULT:HIT:A9".toList).map
        (fun x => (x.1.enemy_view 0 0, x.1.enemy_view 8 0)) = some ('.', 'X') ∧
    (receiver_step ⟨0, empty_board, empty_board⟩ "RESULT:MISS:C4".toList).map
        (fun x => x.1.enemy_view 3 2) = some 'O' ∧
    (receiver_step ⟨0, empty_board, empty_board⟩ "ATTACK:A10".toList).map
        (fun x => (x.1.my_board 0 0, x.1.my_board 9 0)) = some ('.', 'O') := by
  decide

/-- C13: in the command loop of `run_battleship`, `ready` and `place <range>`
typed when the receiver has been started, and `attack <coord>` typed before,
are each answered by one notice on standard output only: the flag and both
boards are unchanged, nothing is handed to `send_to_other`, no receiver is
forked, and the loop goes on. -/
theorem wrong_state_command_rejected (s : GameState) (range coord : Str)
    (started : Int) (hstarted : started ≠ 0) :
    command_step { s with receiver_started := started } "ready".toList =
      ({ s with receiver_started := started },
        [GameAction.write ("You are already ready!".toList ++ [LF])], Flow.next) ∧
    command_step { s with receiver_started := started } ("place ".toList ++ range) =
      ({ s with receiver_started := started },
        [GameAction.write
          ("Game already started. You cannot place ships anymore.".toList ++ [LF])],
        Flow.next) ∧
    command_step { s with receiver_started := 0 } ("attack ".toList ++ coord) =
      ({ s with receiver_started := 0 },
        [GameAction.write ("Type 'ready' first!!!".toList ++ [LF])], Flow.next) ∧
    (∀ text : Str, broadcasts [GameAction.write text] = [] ∧
      starts_receiver [GameAction.write text] = false) := by
  have hp : "place ".toList ++ range = 'p' :: 'l' :: 'a' :: 'c' :: 'e' :: ' ' :: range := rfl
  have ha : "attack ".toList ++ coord =
      'a' :: 't' :: 't' :: 'a' :: 'c' :: 'k' :: ' ' :: coord := rfl
  have hr : "ready".toList = ['r', 'e', 'a', 'd', 'y'] := rfl
  have hpl : "place ".toList = ['p', 'l', 'a', 'c', 'e', ' '] := rfl
  have hat : "attack ".toList = ['a', 't', 't', 'a', 'c', 'k', ' '] := rfl
  refine ⟨?_, ?_, ?_, ?_⟩
  · unfold command_step
    simp only [if_true]
    rw [if_pos hstarted]
  · unfold command_step
    rw [hp, hr, hpl]
    simp only [List.cons.injEq, List.take_succ_cons, List.take_zero]
    simp [hstarted]
  · unfold command_step
    rw [ha, hr, hpl, hat]
    simp only [List.cons.injEq, List.take_succ_cons, List.take_zero]
    simp
  · intro text
    exact ⟨rfl, rfl⟩

/-- Witness for C13: the state after `ready` (flag 1) and the lines `ready`,
`place A1:A3`, and in the state before `ready` the line `attack B2`. -/
theorem wrong_state_command_rejected_witness :
    (1 : Int) ≠ 0 ∧
    command_step { (⟨0, empty_board, empty_board⟩ : GameState) with receiver_started := 1 }
        "ready".toList =
      ({ (⟨0, empty_board, empty_board⟩ : GameState) with receiver_started := 1 },
        [GameAction.write ("You are already ready!".toList ++ [LF])], Flow.next) ∧
    command_step { (⟨0, empty_board, empty_board⟩ : GameState) with receiver_started := 1 }
        ("place ".toList ++ "A1:A3".toList) =
      ({ (⟨0, empty_board, empty_board⟩ : GameState) with receiver_started := 1 },
        [GameAction.write
          ("Game already started. You cannot place ships anymore.".toList ++ [LF])],
        Flow.next) ∧
    command_step { (⟨0, empty_board, empty_board⟩ : GameState) with receiver_started := 0 }
        ("attack ".toList ++ "B2".toList) =
      ({ (⟨0, empty_board, empty_board⟩ : GameState) with receiver_started := 0 },
        [GameAction.write ("Type 'ready' first!!!".toList ++ [LF])], Flow.next) ∧
    (∀ text : Str, broadcasts [GameAction.write text] = [] ∧
      starts_receiver [GameAction.write text] = false) :=
  ⟨by decide,
   wrong_state_command_rejected ⟨0, empty_board, empty_board⟩ "A1:A3".toList "B2".toList 1
     (by decide)⟩

/-- C14: for every own board and every in-grid coordinate whose cell is not
SHIP, the receiver answers `ATTACK:<coord>` by broadcasting exactly
`RESULT:MISS:<coord>` and goes on with the loop.  The cell becomes MISS when
it was EMPTY; when it was HIT or MISS already the board is unchanged (so an
attack on a HIT cell is answered MISS); no other cell changes, no SHIP cell
is created, and the opponent view and the flag are as before. -/
theorem miss_attack (s : GameState) (col row : Fin 10)
    (hcell : s.my_board row col ≠ 'S') :
    ∃ b : Board,
      receiver_step s ("ATTACK:".toList ++ coord_str col row) =
        some ({ s with my_board := b },
          [GameAction.send_to_other ("RESULT:MISS:".toList ++ coord_str col row),
           GameAction.write (LF :: "[MISS] Opponent missed.".toList ++ [LF]),
           GameAction.print_board "MY BOARD STATUS".toList,
           GameAction.write "BattleCommand> ".toList],
          Flow.next) ∧
      (s.my_board row col = '.' → b row col = 'O') ∧
      (s.my_board row col = 'X' ∨ s.my_board row col = 'O' → b = s.my_board) ∧
      (∀ i j : Fin 10, (i ≠ row ∨ j ≠ col) → b i j = s.my_board i j) ∧
      (∀ i j : Fin 10, b i j = 'S' → s.my_board i j = 'S') := by
  refine ⟨if s.my_board row col = '.'
      then set_cell s.my_board (row.val : Int) (col.val : Int) 'O' else s.my_board, ?_, ?_, ?_, ?_, ?_⟩
  · rw [attack_step_eq, if_neg hcell]
  · intro h
    rw [if_pos h, set_cell_fin]
    simp
  · intro h
    have hne : s.my_board row col ≠ '.' := by
      rcases h with h | h <;> rw [h] <;> decide
    rw [if_neg hne]
  · intro i j hij
    by_cases h : s.my_board row col = '.'
    · rw [if_pos h, set_cell_fin, if_neg]
      intro hh
      rcases hij with h1 | h1
      · exact h1 hh.1
      · exact h1 hh.2
    · rw [if_neg h]
  · intro i j
    by_cases h : s.my_board row col = '.'
    · rw [if_pos h, set_cell_fin]
      by_cases hh : i = row ∧ j = col
      · rw [if_pos hh]
        intro hO
        exact absurd hO (by decide)
      · rw [if_neg hh]
        exact id
    · rw [if_neg h]
      exact id

/-- Witness for C14: the empty board attacked at D5. -/
theorem miss_attack_witness :
    (⟨0, empty_board, empty_board⟩ : GameState).my_board 4 3 ≠ 'S' ∧
    ∃ b : Board,
      receiver_step ⟨0, empty_board, empty_board⟩ ("ATTACK:".toList ++ coord_str 3 4) =
        some ({ (⟨0, empty_board, empty_board⟩ : GameState) with my_board := b },
          [GameAction.send_to_other ("RESULT:MISS:".toList ++ coord_str 3 4),
           GameAction.write (LF :: "[MISS] Opponent missed.".toList ++ [LF]),
           GameAction.print_board "MY BOARD STATUS".toList,
           GameAction.write "BattleCommand> ".toList],
          Flow.next) ∧
      ((⟨0, empty_board, empty_board⟩ : GameState).my_board 4 3 = '.' → b 4 3 = 'O') ∧
      ((⟨0, empty_board, empty_board⟩ : GameState).my_board 4 3 = 'X' ∨
        (⟨0, empty_board, empty_board⟩ : GameState).my_board 4 3 = 'O' →
        b = (⟨0, empty_board, empty_board⟩ : GameState).my_board) ∧
      (∀ i j : Fin 10, (i ≠ 4 ∨ j ≠ 3) →
        b i j = (⟨0, empty_board, empty_board⟩ : GameState).my_board i j) ∧
      (∀ i j : Fin 10, b i j = 'S' →
        (⟨0, empty_board, empty_board⟩ : GameState).my_board i j = 'S') :=
  ⟨by decide, miss_attack ⟨0, empty_board, empty_board⟩ 3 4 (by decide)⟩

end Shellish
